import Mathlib

/-!
Verification of the Email-to-Notion pipeline core against its specification.

The Python sources are shallowly embedded: Python `str` values are modelled
as `List Char` (one entry per code point), SQLite state as a list of rows,
`datetime` instants as `Int`, float confidences as `ℚ`, and the external
collaborators (`dateparser.parse`, `re.finditer` on the date patterns, the
HTML-to-text converter, the Notion API) as oracle parameters.  All
definitions are executable and decidable so concrete runs can be settled by
`decide`.
-/

set_option maxRecDepth 8000

namespace EmailToNotion

/-- Python `str` modelled as its sequence of code points. -/
abbrev PyStr := List Char

/-- ASCII whitespace recognised by Python `str.strip` / `\s`. -/
def pyIsSpace (c : Char) : Bool :=
  c = ' ' ∨ c = '\t' ∨ c = '\n' ∨ c = '\r' ∨ c = '\x0b' ∨ c = '\x0c'

/-- Strip characters satisfying `p` from both ends (Python `str.strip(chars)`). -/
def stripWith (p : Char → Bool) (l : PyStr) : PyStr :=
  (((l.dropWhile p).reverse.dropWhile p)).reverse

/-- Python `str.strip()`. -/
def pyStrip (l : PyStr) : PyStr := stripWith pyIsSpace l

/-- The double-quote character, written via its code point. -/
def dquote : Char := Char.ofNat 34

/-- The single-quote character, written via its code point. -/
def squote : Char := Char.ofNat 39

/-- Python `str.strip(chars)` for the quote set used by `_parse_sender`. -/
def stripQuotes (l : PyStr) : PyStr := stripWith (fun c => c = dquote ∨ c = squote) l

/-- ASCII lower-casing of one character (Python `str.lower` on the inputs used). -/
def pyLowerChar (c : Char) : Char :=
  if 'A' ≤ c ∧ c ≤ 'Z' then Char.ofNat (c.toNat + 32) else c

/-- Python `str.lower()` (ASCII fragment). -/
def pyLower (l : PyStr) : PyStr := l.map pyLowerChar

/-- Python `str.startswith` on code-point lists. -/
def isPrefixL : PyStr → PyStr → Bool
  | [], _ => true
  | _ :: _, [] => false
  | a :: as, b :: bs => a = b && isPrefixL as bs

/-- Python `str.startswith(tuple)`. -/
def startsWithAny (l : PyStr) (ps : List PyStr) : Bool :=
  ps.any (fun p => isPrefixL p l)

/-- Python `needle in hay` substring containment. -/
def containsSub (needle : PyStr) : PyStr → Bool
  | [] => needle.isEmpty
  | h :: t => isPrefixL needle (h :: t) || containsSub needle t

/-- Python `str.rfind(c)`: index of the last occurrence of `c`, if any. -/
def rfindIdx (c : Char) : PyStr → Option Nat
  | [] => none
  | a :: t =>
    match rfindIdx c t with
    | some i => some (i + 1)
    | none => if a = c then some 0 else none

/-- Python `text.split(sep)` for a single-character separator `'\n'`. -/
def splitLines : PyStr → List PyStr
  | [] => [[]]
  | c :: t =>
    match splitLines t with
    | [] => [[c]]
    | s :: rest => if c = '\n' then [] :: s :: rest else (c :: s) :: rest

/-- A sentence-terminating character of the `[.!?]+` splitting regex. -/
def isTerm (c : Char) : Bool := c = '.' ∨ c = '!' ∨ c = '?'

/-- Python `re.split(r"[.!?]+", text)`: segments between maximal terminator
runs.  A terminator followed by another terminator extends the current run;
otherwise it closes a segment. -/
def splitRuns : PyStr → List PyStr
  | [] => [[]]
  | c :: t =>
    if isTerm c then
      match t with
      | d :: _ => if isTerm d then splitRuns t else [] :: splitRuns t
      | [] => [] :: splitRuns t
    else
      match splitRuns t with
      | [] => [[c]]
      | s :: rest => (c :: s) :: rest

/- ### storage.py

One SQLite row of the `emails` table; the autoincrement `id` surrogate key is
immaterial to the claims and omitted.  All columns are nullable text. -/

structure EmailRecord where
  message_id : Option String
  subject : Option String
  sender : Option String
  date : Option String
  summary : Option String
  body : Option String
  links : Option String
  processed_at : Option String
  notion_page_id : Option String
  deadline : Option String
  action_items : Option String
  ner_summary : Option String
deriving DecidableEq

/-- Python `record.get('processed_at') or datetime.utcnow().isoformat()`:
`None` and the empty string are falsy. -/
def pyOr (o : Option String) (dflt : String) : String :=
  match o with
  | some s => if s = "" then dflt else s
  | none => dflt

/-- The row actually inserted by `save_email` (`processed_at` defaulted). -/
def mkRow (r : EmailRecord) (nowIso : String) : EmailRecord :=
  { r with processed_at := some (pyOr r.processed_at nowIso) }

/-- `storage.is_processed`: existence check by `message_id`. -/
def is_processed (mid : String) (db : List EmailRecord) : Bool :=
  db.any (fun row => row.message_id == some mid)

/-- `storage.save_email`: `INSERT OR IGNORE` keyed on the UNIQUE `message_id`
column.  A `NULL` `message_id` never collides (SQLite UNIQUE ignores NULLs). -/
def save_email (r : EmailRecord) (nowIso : String) (db : List EmailRecord) :
    List EmailRecord :=
  match r.message_id with
  | some mid =>
    if db.any (fun row => row.message_id == some mid) then db
    else db ++ [mkRow r nowIso]
  | none => db ++ [mkRow r nowIso]

/-- `storage.update_notion_page_id`: `UPDATE emails SET notion_page_id = ?
WHERE message_id = ?`. -/
def update_notion_page_id (mid pid : String) (db : List EmailRecord) :
    List EmailRecord :=
  db.map (fun r =>
    if r.message_id == some mid then { r with notion_page_id := some pid } else r)

/-- `storage.mark_processed`: `UPDATE emails SET processed_at = ? WHERE
message_id = ?`. -/
def mark_processed (mid nowIso : String) (db : List EmailRecord) :
    List EmailRecord :=
  db.map (fun r =>
    if r.message_id == some mid then { r with processed_at := some nowIso } else r)

/-- `storage.get_notion_page_id`: first matching row's value, with SQL `NULL`
and the empty string both reported as `None`. -/
def get_notion_page_id (mid : String) (db : List EmailRecord) : Option String :=
  match db.find? (fun r => r.message_id == some mid) with
  | some r =>
    match r.notion_page_id with
    | some s => if s = "" then none else some s
    | none => none
  | none => none

/-- Number of stored rows carrying a given `message_id`. -/
def countId (mid : String) (db : List EmailRecord) : Nat :=
  (db.filter (fun row => row.message_id == some mid)).length

/-- All fields of two rows agree except possibly `notion_page_id`. -/
def sameExceptNotion (a b : EmailRecord) : Prop :=
  a.message_id = b.message_id ∧ a.subject = b.subject ∧ a.sender = b.sender ∧
  a.date = b.date ∧ a.summary = b.summary ∧ a.body = b.body ∧
  a.links = b.links ∧ a.processed_at = b.processed_at ∧
  a.deadline = b.deadline ∧ a.action_items = b.action_items ∧
  a.ner_summary = b.ner_summary

/-- All fields of two rows agree except possibly `processed_at`. -/
def sameExceptProcessed (a b : EmailRecord) : Prop :=
  a.message_id = b.message_id ∧ a.subject = b.subject ∧ a.sender = b.sender ∧
  a.date = b.date ∧ a.summary = b.summary ∧ a.body = b.body ∧
  a.links = b.links ∧ a.notion_page_id = b.notion_page_id ∧
  a.deadline = b.deadline ∧ a.action_items = b.action_items ∧
  a.ner_summary = b.ner_summary

/- ### parser.py -/

/-- The sentinel sender of `_parse_sender`. -/
def SENTINEL : PyStr := ("Unknown <unknown@example.com>".data)

/-- Whether a bracket content matches `[^>]+@[^>]+`: an `'@'` with at least one
character on each side (the content itself contains no `'>'`). -/
def hasInnerAt (content : PyStr) : Bool :=
  ((content.drop 1).dropLast).contains '@'

/-- `re.search(r"<([^>]+@[^>]+)>", h)`: leftmost `'<'` whose span up to the
next `'>'` contains an interior `'@'`; returns the span (group 1). -/
def bracketSearch : PyStr → Option PyStr
  | [] => none
  | c :: rest =>
    if c = '<' then
      if rest.contains '>' && hasInnerAt (rest.takeWhile (· ≠ '>')) then
        some (rest.takeWhile (· ≠ '>'))
      else bracketSearch rest
    else bracketSearch rest

/-- `re.search(r"^([^<]+)<", h)`: the nonempty text before the first `'<'`. -/
def nameSearch (l : PyStr) : Option PyStr :=
  let g := l.takeWhile (· ≠ '<')
  if g ≠ [] ∧ g.length < l.length then some g else none

/-- Rendering `f"{name} <{email}>"`. -/
def fmtNameEmail (name email : PyStr) : PyStr :=
  name ++ [' ', '<'] ++ email ++ ['>']

/-- Rendering `f"Unknown <{email}>"`. -/
def fmtUnknown (email : PyStr) : PyStr :=
  ("Unknown <".data) ++ email ++ ['>']

/-- `parser._parse_sender`. -/
def parse_sender (h : PyStr) : PyStr :=
  if h.isEmpty then SENTINEL
  else
    let emailOpt :=
      match bracketSearch h with
      | some g => some (pyStrip g)
      | none =>
        if h.contains '@' && !(h.contains ' ') then some (pyStrip h) else none
    match emailOpt with
    | none => SENTINEL
    | some email =>
      match nameSearch h with
      | some g =>
        let name := stripQuotes (pyStrip g)
        if name ≠ [] ∧ name ≠ email then fmtNameEmail name email
        else fmtUnknown email
      | none => fmtUnknown email

/-- Length of the scheme part of `https?://` matching case-insensitively at the
head of `l` (greedy `s?`), if any. -/
def schemeLen (l : PyStr) : Option Nat :=
  if pyLower (l.take 8) = ("https://".data) then some 8
  else if pyLower (l.take 7) = ("http://".data) then some 7
  else none

/-- One match of `https?://\S+` anchored at the head of `l`, if any. -/
def grabLink (l : PyStr) : Option PyStr :=
  match schemeLen l with
  | some k =>
    let body := (l.drop k).takeWhile (fun c => !pyIsSpace c)
    if body.isEmpty then none else some (l.take k ++ body)
  | none => none

/-- Scan for successive non-overlapping matches of `https?://\S+`; after a
match of length `n` the scan resumes `n` characters further on (`skip` counts
the characters of the current match still to pass over). -/
def findLinksGo (skip : Nat) : PyStr → List PyStr
  | [] => []
  | c :: t =>
    match skip with
    | k + 1 => findLinksGo k t
    | 0 =>
      match grabLink (c :: t) with
      | some m => m :: findLinksGo (m.length - 1) t
      | none => findLinksGo 0 t

/-- `parser.extract_links`: `re.findall(r"https?://\S+", text)` (IGNORECASE). -/
def extract_links (text : PyStr) : List PyStr := findLinksGo 0 text

/-- A node of the MIME part tree.  `leaf` is a non-multipart part whose
`payload` is the decoded text (`none` models a part on which
`get_payload(decode=True)...decode(...)` raises, which the walk loops skip).
`multi` is a multipart container (its own decode attempt always raises). -/
inductive MimePart where
  | leaf (ctype : String) (payload : Option String)
  | multi (ctype : String) (children : List MimePart)

/-- `part.get_content_type()`. -/
def MimePart.ctypeOf : MimePart → String
  | .leaf ct _ => ct
  | .multi ct _ => ct

/-- Result of `part.get_payload(decode=True).decode(...)` under `try`. -/
def MimePart.decodedPayload : MimePart → Option String
  | .leaf _ p => p
  | .multi _ _ => none

mutual

/-- `msg.walk()`: the part itself followed by the recursive walk of its
subparts, in document order. -/
def walk : MimePart → List MimePart
  | .leaf ct p => [.leaf ct p]
  | .multi ct cs => .multi ct cs :: walkList cs

/-- Walk of a list of sibling parts. -/
def walkList : List MimePart → List MimePart
  | [] => []
  | m :: ms => walk m ++ walkList ms

end

/-- First part of the walk with the given content type whose payload decodes;
matching parts that fail to decode are skipped (`except: continue`). -/
def firstDecoded (parts : List MimePart) (ct : String) : Option String :=
  (parts.filterMap (fun p => if p.ctypeOf = ct then p.decodedPayload else none)).head?

/-- `parser._get_text_from_email`, with the BeautifulSoup HTML-to-text
conversion abstracted as the oracle `htmlToText`.  In the non-multipart case a
failed decode yields the Python string `str(None) = "None"`. -/
def get_text_from_email (htmlToText : String → String) (msg : MimePart) :
    String × Option String :=
  match msg with
  | .multi _ _ =>
    match firstDecoded (walk msg) "text/plain" with
    | some body => (body, some "text/plain")
    | none =>
      match firstDecoded (walk msg) "text/html" with
      | some html => (htmlToText html, some "text/html")
      | none => ("", none)
  | .leaf ct p =>
    let decoded := match p with | some s => s | none => "None"
    if ct = "text/html" then (htmlToText decoded, some "text/html")
    else (decoded, some ct)

/- ### ner_extras.py -/

/-- The fixed action-verb vocabulary (duplicates preserved as in the source). -/
def ACTION_VERBS : List PyStr :=
  (["submit", "register", "attend", "complete", "finish", "send", "reply", "respond",
      "schedule", "book", "reserve", "confirm", "cancel", "update", "review", "approve",
      "reject", "sign", "upload", "download", "install", "configure", "setup", "test",
      "verify", "check", "validate", "create", "delete", "modify", "change", "update",
      "fix", "resolve", "implement", "develop", "build", "deploy", "publish", "share",
      "forward", "copy", "paste", "print", "save", "backup", "restore", "migrate",
      "upgrade", "downgrade", "rollback", "merge", "split", "combine", "separate", "organize",
      "sort", "filter", "search", "find", "locate", "identify", "analyze", "evaluate",
      "assess", "measure", "calculate", "compute", "process", "handle", "manage", "administer",
      "supervise", "monitor", "track", "follow", "trace", "investigate", "research", "study",
      "learn", "understand", "comprehend", "explain", "describe", "document", "record", "log",
      "note", "mention", "refer", "cite", "quote", "reference", "link", "connect",
      "associate", "relate", "correlate", "compare", "contrast", "differentiate", "distinguish", "separate",
      "categorize", "classify", "group", "cluster", "segment", "partition", "divide", "split",
      "break", "separate", "isolate", "extract", "remove", "eliminate", "exclude", "include",
      "add", "insert", "append", "prepend", "attach", "detach", "link", "unlink",
      "connect", "disconnect", "join", "leave", "enter", "exit", "start", "stop",
      "begin", "end", "pause", "resume", "continue", "proceed", "advance", "progress",
      "move", "shift", "transfer", "relocate", "reposition", "rearrange", "reorganize", "restructure",
      "reformat", "redesign", "rebuild", "reconstruct", "recreate", "reproduce", "replicate", "duplicate",
      "clone", "copy", "paste" ] : List String).map (fun s => s.data)

/-- First of the twelve date regex patterns (relative weekday phrases). -/
def PATTERN_WEEKDAY : String :=
  "\\b(?:next|this|last)\\s+(?:monday|tuesday|wednesday|thursday|friday|saturday|sunday|week|month|year)\\b"

/-- The fixed date regex pattern library, kept as opaque pattern keys for the
`re.finditer` oracle. -/
def DATE_PATTERNS : List String :=
  [ PATTERN_WEEKDAY,
    "\\b(?:tomorrow|yesterday|today)\\b",
    "\\b(?:january|february|march|april|may|june|july|august|september|october|november|december)\\s+\\d\x7b1,2\x7d(?:st|nd|rd|th)?\\b",
    "\\b\\d\x7b1,2\x7d/(?:\\d\x7b1,2\x7d|\\d\x7b4\x7d)\\b",
    "\\b\\d\x7b1,2\x7d-\\d\x7b1,2\x7d-\\d\x7b2,4\x7d\\b",
    "\\b\\d\x7b1,2\x7d\\s+(?:jan|feb|mar|apr|may|jun|jul|aug|sep|oct|nov|dec)\\b",
    "\\b(?:jan|feb|mar|apr|may|jun|jul|aug|sep|oct|nov|dec)\\.?\\s+\\d\x7b1,2\x7d\\b",
    "\\b\\d\x7b4\x7d-\\d\x7b1,2\x7d-\\d\x7b1,2\x7d\\b",
    "\\b(?:by|before|after|on|at)\\s+(?:next|this|last)?\\s*(?:monday|tuesday|wednesday|thursday|friday|saturday|sunday|week|month|year)\\b",
    "\\b(?:by|before|after|on|at)\\s+\\d\x7b1,2\x7d(?:st|nd|rd|th)?\\s+(?:january|february|march|april|may|june|july|august|september|october|november|december)\\b",
    "\\b(?:by|before|after|on|at)\\s+\\d\x7b1,2\x7d/\\d\x7b1,2\x7d(?:/\\d\x7b2,4\x7d)?\\b",
    "\\b(?:due|deadline)\\s+(?:by|on|before)?\\s*:?\\s*(.+?)(?:\\n|$)" ]

/-- The deadline-signal keywords of the sentence-level pass. -/
def DATE_KEYWORDS : List PyStr :=
  (["deadline", "due", "by", "before", "after", "on", "at"] : List String).map (fun s => s.data)

/-- The bullet / numbered-list markers (first glyph is the mojibake bullet of
the source). -/
def BULLET_MARKS : List PyStr :=
  (["\u00e2\u20ac\u00a2", "-", "*", "1.", "2.", "3.", "4.", "5."] : List String).map (fun s => s.data)

/-- The personal-pronoun prefixes excluded by the imperative heuristic. -/
def PRONOUNS : List PyStr :=
  (["I", "We", "You", "They", "He", "She", "It"] : List String).map (fun s => s.data)

/-- One extracted date candidate. -/
structure DateRec where
  text : PyStr
  parsed_date : Int
  confidence : Rat
  method : String
deriving DecidableEq

/-- One extracted action item. -/
structure ActionRec where
  text : PyStr
  verb : PyStr
  confidence : Rat
  line_number : Nat
  method : String
deriving DecidableEq

/-- Deduplication loop body: keep a candidate iff its key was not seen yet. -/
def dedupGo (key : A -> PyStr) (seen : List PyStr) : List A -> List A
  | [] => []
  | a :: t =>
    if seen.contains (key a) then dedupGo key seen t
    else a :: dedupGo key (key a :: seen) t

/-- Deduplicate by key, first occurrence wins (the `seen_texts` loops). -/
def dedupFirstBy (key : A -> PyStr) (l : List A) : List A := dedupGo key [] l

/-- Stable descending insertion: `x` goes after all elements with a key at
least as large. -/
def insertDescBy (key : A -> Rat) (x : A) : List A -> List A
  | [] => [x]
  | y :: t => if key y < key x then x :: y :: t else y :: insertDescBy key x t

/-- Stable sort by descending key (extensionally equal to Python
`list.sort(key=..., reverse=True)`, which is a stable sort). -/
def sortDescBy (key : A -> Rat) (l : List A) : List A :=
  l.foldl (fun acc x => insertDescBy key x acc) []

/-- The raw date-candidate list of `extract_dates` before post-processing:
whole-text parse, pattern matches, keyword sentences.  `parse` is the
`dateparser.parse(-, languages=[en])` oracle (`none` covers both a `None`
result and an exception); `finditer pat lowered` is the `re.finditer` oracle
returning the matched substrings in order. -/
def rawDateCands (parse : PyStr -> Option Int)
    (finditer : String -> PyStr -> List PyStr) (text : PyStr) : List DateRec :=
  let m1 :=
    match parse text with
    | some t =>
      [{ text := if text.length > 100 then text.take 100 ++ ("...".data) else text,
         parsed_date := t, confidence := mkRat 8 10, method := "dateparser_full" }]
    | none => []
  let m2 := DATE_PATTERNS.flatMap (fun pat =>
    (finditer pat (pyLower text)).filterMap (fun m =>
      (parse m).map (fun t =>
        { text := m, parsed_date := t, confidence := mkRat 9 10,
          method := "pattern_match" })))
  let m3 := (splitRuns text).filterMap (fun s =>
    if DATE_KEYWORDS.any (fun k => containsSub k (pyLower s)) then
      (parse s).map (fun t =>
        { text := pyStrip s, parsed_date := t, confidence := mkRat 7 10,
          method := "keyword_context" })
    else none)
  m1 ++ m2 ++ m3

/-- `ner_extras.extract_dates`: raw candidates, deduplicated by matched text
(first wins), sorted by descending confidence (stably), top 5. -/
def extract_dates (parse : PyStr -> Option Int)
    (finditer : String -> PyStr -> List PyStr) (text : PyStr) : List DateRec :=
  if text.isEmpty then []
  else (sortDescBy (fun d => d.confidence)
    (dedupFirstBy (fun d => d.text) (rawDateCands parse finditer text))).take 5

/-- First verb the line starts with (`verb + space` or `verb + colon`). -/
def verbStartFind (lineLower : PyStr) : Option PyStr :=
  ACTION_VERBS.find? (fun v =>
    isPrefixL (v ++ [' ']) lineLower || isPrefixL (v ++ [':']) lineLower)

/-- First verb contained anywhere in the line. -/
def verbContainFind (lineLower : PyStr) : Option PyStr :=
  ACTION_VERBS.find? (fun v => containsSub v lineLower)

/-- The candidates contributed by one (0-based numbered) line: the four
heuristics of `extract_action_items`, in source order. -/
def lineCandidates (lineNum : Nat) (rawLine : PyStr) : List ActionRec :=
  let line := pyStrip rawLine
  if line.length < 10 then []
  else
    let ll := pyLower line
    let c1 :=
      match verbStartFind ll with
      | some v => [{ text := line, verb := v, confidence := mkRat 9 10,
                     line_number := lineNum + 1, method := "verb_start" }]
      | none => []
    let c2 :=
      if startsWithAny line BULLET_MARKS then
        match verbContainFind ll with
        | some v => [{ text := line, verb := v, confidence := mkRat 8 10,
                       line_number := lineNum + 1, method := "bullet_verb" }]
        | none => []
      else []
    let c3 :=
      if line.getLast? == some '.' && !(startsWithAny line PRONOUNS) then
        match verbContainFind ll with
        | some v => [{ text := line, verb := v, confidence := mkRat 7 10,
                       line_number := lineNum + 1, method := "imperative" }]
        | none => []
      else []
    let c4 :=
      if isPrefixL ("please ".data) ll then
        match verbContainFind ll with
        | some v => [{ text := line, verb := v, confidence := mkRat 8 10,
                       line_number := lineNum + 1, method := "please_verb" }]
        | none => []
      else []
    c1 ++ c2 ++ c3 ++ c4

/-- The raw action-item candidate list over all lines. -/
def rawActionCands (text : PyStr) : List ActionRec :=
  ((splitLines text).enum).flatMap (fun p => lineCandidates p.1 p.2)

/-- `ner_extras.extract_action_items`: per-line heuristics, deduplicated by
line text (first wins), sorted by descending confidence (stably), top 10. -/
def extract_action_items (text : PyStr) : List ActionRec :=
  if text.isEmpty then []
  else (sortDescBy (fun a => a.confidence)
    (dedupFirstBy (fun a => a.text) (rawActionCands text))).take 10

/-- Python `max(l, key)` semantics: scan left to right, replace the running
best only on a strictly larger key, so the first maximal element wins. -/
def pyMaxBy (key : A -> Rat) (best : A) : List A -> A
  | [] => best
  | d :: t => pyMaxBy key (if key best < key d then d else best) t

/-- `ner_extras.get_primary_deadline`, with `datetime.now()` passed as the
instant `now`. -/
def get_primary_deadline (now : Int) (dates : List DateRec) : Option Int :=
  if dates.isEmpty then none
  else
    match dates.filter (fun d => now < d.parsed_date) with
    | [] => none
    | f :: fs => some ((pyMaxBy (fun d => d.confidence) f fs).parsed_date)

/-- The primary-deadline selection as the specification words it: among the
strictly future candidates, the instant of the highest-confidence one,
ties resolved in favour of the earliest-encountered candidate
(`List.argmax` returns the first maximiser), `none` when no candidate
survives. -/
def primary_deadline_spec (now : Int) (dates : List DateRec) : Option Int :=
  ((dates.filter (fun d => now < d.parsed_date)).argmax
    (fun d => d.confidence)).map (fun d => d.parsed_date)

/- ### summarizer.py : Summarizer.chunk_text -/

/-- The end of the window starting at `start`: the window is
`text[start : min(start+maxChars, len)]`; if it contains a period whose cut
point `start + p + 1` lies strictly before the window end, cut there, else cut
at the window end (`chunk_text` loop body). -/
def windowEnd (maxChars : Nat) (text : PyStr) (start : Nat) : Nat :=
  let end0 := min (start + maxChars) text.length
  match rfindIdx '.' ((text.drop start).take (end0 - start)) with
  | some p => if start + p + 1 < end0 then start + p + 1 else end0
  | none => end0

/-- The chunking loop of `chunk_text` (total for positive `maxChars`; the
Python loop does not terminate when `max_chars = 0`). -/
def chunkLoop (maxChars : Nat) (text : PyStr) (start : Nat) : List PyStr :=
  if _h : start < text.length ∧ 0 < maxChars then
    pyStrip ((text.drop start).take (windowEnd maxChars text start - start)) ::
      chunkLoop maxChars text (windowEnd maxChars text start)
  else []
termination_by text.length - start
decreasing_by
  have hlt : start < windowEnd maxChars text start := by
    unfold windowEnd
    have h0 : start < min (start + maxChars) text.length :=
      lt_min (by omega) _h.1
    rcases hr : rfindIdx '.' ((text.drop start).take
        (min (start + maxChars) text.length - start)) with _ | p
    · simpa [hr] using h0
    · simp only [hr]
      split <;> omega
  omega

/-- `Summarizer.chunk_text` (`max_chars` explicit; the source default is
3000). -/
def chunk_text (maxChars : Nat) (text : PyStr) : List PyStr :=
  if text.isEmpty then [[]]
  else
    let t := pyStrip text
    if t.length ≤ maxChars then [t]
    else (chunkLoop maxChars t 0).filter (fun c => !c.isEmpty)

/-- The window end as the claim words it: cut at the last period within the
window if and only if that period falls past the window midpoint, else cut
hard at the window boundary.  (Modelled from the claim, for comparison.) -/
def windowEndClaim (maxChars : Nat) (text : PyStr) (start : Nat) : Nat :=
  let end0 := min (start + maxChars) text.length
  let w := (text.drop start).take (end0 - start)
  match rfindIdx '.' w with
  | some p => if 2 * p > w.length then start + p + 1 else end0
  | none => end0

/-- The chunking loop with the claim's midpoint cut rule. -/
def chunkLoopClaim (maxChars : Nat) (text : PyStr) (start : Nat) : List PyStr :=
  if _h : start < text.length ∧ 0 < maxChars then
    pyStrip ((text.drop start).take (windowEndClaim maxChars text start - start)) ::
      chunkLoopClaim maxChars text (windowEndClaim maxChars text start)
  else []
termination_by text.length - start
decreasing_by
  have hlt : start < windowEndClaim maxChars text start := by
    unfold windowEndClaim
    have h0 : start < min (start + maxChars) text.length :=
      lt_min (by omega) _h.1
    rcases hr : rfindIdx '.' ((text.drop start).take
        (min (start + maxChars) text.length - start)) with _ | p
    · simpa [hr] using h0
    · simp only [hr]
      split <;> omega
  omega

/-- `chunk_text` as the claim describes it (midpoint rule).  Modelled from the
claim, for comparison with the source embedding. -/
def chunk_text_claim (maxChars : Nat) (text : PyStr) : List PyStr :=
  if text.isEmpty then [[]]
  else
    let t := pyStrip text
    if t.length ≤ maxChars then [t]
    else (chunkLoopClaim maxChars t 0).filter (fun c => !c.isEmpty)

/-- The window end as the amended claim words it: whenever the window contains
a period, cut just after the last one (`Nat.findGreatest` picks the largest
period index), else cut hard at the window boundary. -/
def windowEndAmended (maxChars : Nat) (text : PyStr) (start : Nat) : Nat :=
  let end0 := min (start + maxChars) text.length
  let w := (text.drop start).take (end0 - start)
  if '.' ∈ w then
    start + Nat.findGreatest (fun i => w.getD i ' ' = '.') (w.length - 1) + 1
  else end0

/-- The successive cut points of the amended chunking description. -/
def cutList (maxChars : Nat) (text : PyStr) (start : Nat) : List Nat :=
  if _h : start < text.length ∧ 0 < maxChars then
    windowEndAmended maxChars text start ::
      cutList maxChars text (windowEndAmended maxChars text start)
  else []
termination_by text.length - start
decreasing_by
  have hlt : start < windowEndAmended maxChars text start := by
    unfold windowEndAmended
    have h0 : start < min (start + maxChars) text.length :=
      lt_min (by omega) _h.1
    dsimp only
    split <;> omega
  omega

/-- The stripped slices of `text` delimited by consecutive cut points. -/
def chunksVia (text : PyStr) : Nat → List Nat → List PyStr
  | _, [] => []
  | s, e :: es => pyStrip ((text.drop s).take (e - s)) :: chunksVia text e es

/-- `chunk_text` as the amended claim describes it: texts whose stripped form
fits in one window are returned whole; otherwise the nonempty stripped window
slices, each window cut just after its last period when it contains one and
hard at the boundary otherwise. -/
def chunk_text_amended (maxChars : Nat) (text : PyStr) : List PyStr :=
  if text.isEmpty then [[]]
  else
    let t := pyStrip text
    if t.length ≤ maxChars then [t]
    else (chunksVia t 0 (cutList maxChars t 0)).filter (fun c => !c.isEmpty)

/- ### notion_writer.py : NotionWriter._retry_with_backoff -/

/-- Outcome of one call of the wrapped function: success, an
`APIResponseError` with its status, or any other exception. -/
inductive Outcome (A : Type) where
  | ok (a : A)
  | api (status : Nat)
  | exn
deriving DecidableEq

/-- What `_retry_with_backoff` finally does: return a value (`ok (some a)`),
fall through the loop returning Python `None` (`ok none`, only possible when
`max_retries = 0`), or re-raise. -/
inductive RetryErr where
  | api (status : Nat)
  | exn
deriving DecidableEq

/-- The retry loop from attempt number `attempt` on.  `attempts i` is the
outcome of the `i`-th call of `func`.  Returns the final result, the number of
calls made, and the list of back-off delays slept (seconds). -/
def retryGo (attempts : Nat → Outcome A) (maxRetries : Nat) (base : Rat)
    (attempt : Nat) : Except RetryErr (Option A) × Nat × List Rat :=
  if _h : attempt < maxRetries then
    match attempts attempt with
    | .ok a => (.ok (some a), attempt + 1, [])
    | .api s =>
      if s = 429 then
        if attempt < maxRetries - 1 then
          let r := retryGo attempts maxRetries base (attempt + 1)
          (r.1, r.2.1, base * 2 ^ attempt :: r.2.2)
        else (.error (.api 429), attempt + 1, [])
      else (.error (.api s), attempt + 1, [])
    | .exn => (.error .exn, attempt + 1, [])
  else (.ok none, attempt, [])
termination_by maxRetries - attempt

/-- `NotionWriter._retry_with_backoff func max_retries base_delay`. -/
def retry_with_backoff (attempts : Nat → Outcome A) (maxRetries : Nat)
    (base : Rat) : Except RetryErr (Option A) × Nat × List Rat :=
  retryGo attempts maxRetries base 0

/- ### Claim-model definitions and concrete inputs -/

/-- The trimmed, quote-stripped display name of a From header (empty when the
`^([^<]+)<` search fails). -/
def senderNameOf (h : PyStr) : PyStr :=
  match nameSearch h with
  | some g => stripQuotes (pyStrip g)
  | none => []

/-- Render a sender given the extracted email: the display name is kept only
when nonempty and different from the email. -/
def renderWithName (h : PyStr) (email : PyStr) : PyStr :=
  let n := senderNameOf h
  if n ≠ [] ∧ n ≠ email then fmtNameEmail n email else fmtUnknown email

/-- Sender normalization as claim C6 words it (modelled from the claim, for
comparison): a header of the form `Name <email>` yields `Name <email>`; a bare
single token containing `'@'` and no spaces yields `Unknown <token>`; every
other header yields the sentinel. -/
def sender_claim_spec (h : PyStr) : PyStr :=
  match bracketSearch h, nameSearch h with
  | some g, some n => fmtNameEmail (pyStrip n) (pyStrip g)
  | _, _ =>
    if h.contains '@' && !(h.contains ' ') then fmtUnknown h else SENTINEL

/-- The scenario body of the spec (claim C7). -/
def scenarioBody : PyStr :=
  ("Please submit the report by next Monday. Visit https://x.co/report.".data)

/-- The single action item the extractor actually returns on `scenarioBody`:
the imperative heuristic fires first, and deduplication by line text then
drops the later `please_verb` candidate. -/
def ceActionItem : ActionRec :=
  { text := scenarioBody, verb := ("submit".data), confidence := mkRat 7 10,
    line_number := 1, method := "imperative" }

/-- Fifteen distinct lines that each match the verb-start heuristic. -/
def fifteenLines : PyStr :=
  ("submit the report aa\nsubmit the report ab\nsubmit the report ac\nsubmit the report ad\nsubmit the report ae\nsubmit the report af\nsubmit the report ag\nsubmit the report ah\nsubmit the report ai\nsubmit the report aj\nsubmit the report ak\nsubmit the report al\nsubmit the report am\nsubmit the report an\nsubmit the report ao".data)

/-- A 3001-character text whose only period sits near the start: the source
cuts the first window right after it, the claim's midpoint rule would not. -/
def ceChunkText : PyStr := 'a' :: '.' :: List.replicate 2999 'b'

/-- A stored row used by the storage counterexamples and witnesses. -/
def rowStored : EmailRecord :=
  { message_id := some "mid-1", subject := some "subj",
    sender := some "Alice <a@x.com>", date := some "2024-01-15",
    summary := some "sum", body := some "body", links := some "",
    processed_at := some "2024-01-15T10:00:00", notion_page_id := none,
    deadline := none, action_items := some "", ner_summary := some "n" }

/-- Attempt sequence used by the retry witness: first call rate-limited, the
second succeeds. -/
def attemptsW : Nat → Outcome Nat :=
  fun i => if i = 0 then .api 429 else .ok 7

/-- Oracle: `dateparser` succeeds exactly on the phrase `next monday`. -/
def parseW : PyStr → Option Int :=
  fun s => if s = ("next monday".data) then some 42 else none

/-- Oracle: the weekday pattern matches `next monday` in the lowered scenario
body, every other pattern matches nothing. -/
def finditerW : String → PyStr → List PyStr :=
  fun pat low =>
    if pat = PATTERN_WEEKDAY ∧ low = pyLower scenarioBody then
      [("next monday".data)]
    else []

/-- Oracle: `dateparser` succeeds exactly on the full text `hello world`. -/
def parseHello : PyStr → Option Int :=
  fun s => if s = ("hello world".data) then some 5 else none

/-- Oracle: no regex pattern matches anything. -/
def finditerEmpty : String → PyStr → List PyStr := fun _ _ => []

/-- The candidate produced by the whole-text pass on `hello world`. -/
def helloCand : DateRec :=
  { text := ("hello world".data), parsed_date := 5, confidence := mkRat 8 10,
    method := "dateparser_full" }

/-- A multipart message carrying both a plain and an HTML part. -/
def mimeW : MimePart :=
  .multi "multipart/alternative"
    [.leaf "text/plain" (some "plain body"), .leaf "text/html" (some "<b>x</b>")]

/- ### Supporting lemmas : storage -/

/-- A row freshly built by `save_email` keeps the record's `message_id`. -/
theorem mkRow_message_id (r : EmailRecord) (nowIso : String) :
    (mkRow r nowIso).message_id = r.message_id := rfl

/-- Inserting a record whose `message_id` is present leaves the table
untouched. -/
theorem save_email_mem (r : EmailRecord) (mid nowIso : String)
    (db : List EmailRecord) (hmid : r.message_id = some mid)
    (hin : is_processed mid db = true) : save_email r nowIso db = db := by
  unfold save_email
  rw [hmid]
  simp only [is_processed] at hin
  simp [hin]

/-- Inserting a record whose `message_id` is absent appends exactly one row. -/
theorem save_email_absent (r : EmailRecord) (mid nowIso : String)
    (db : List EmailRecord) (hmid : r.message_id = some mid)
    (hout : is_processed mid db = false) :
    save_email r nowIso db = db ++ [mkRow r nowIso] := by
  unfold save_email
  rw [hmid]
  simp only [is_processed] at hout
  simp [hout]

/- ### Claim C1 -/

/-- C1: persistence is idempotent.  For a record keyed by `message_id`:
saving over an existing row is silently ignored and preserves the stored
fields; saving into a table without the key appends the one new row, leaving
exactly one row with that key when the key was absent; and saving twice is
the same as saving once. -/
theorem C1_save_email_idempotent (r : EmailRecord) (mid nowA nowB : String)
    (db : List EmailRecord) (hmid : r.message_id = some mid) :
    (is_processed mid db = true → save_email r nowA db = db) ∧
    (is_processed mid db = false →
      save_email r nowA db = db ++ [mkRow r nowA] ∧
      countId mid (save_email r nowA db) = countId mid db + 1 ∧
      countId mid db = 0) ∧
    save_email r nowB (save_email r nowA db) = save_email r nowA db := by
  refine ⟨fun hin => save_email_mem r mid nowA db hmid hin, fun hout => ?_, ?_⟩
  · have happ := save_email_absent r mid nowA db hmid hout
    have hzero : countId mid db = 0 := by
      simp only [is_processed, List.any_eq_false] at hout
      simp only [countId, List.length_eq_zero, List.filter_eq_nil_iff]
      exact fun row hrow => hout row hrow
    refine ⟨happ, ?_, hzero⟩
    simp [happ, countId, List.filter_append, mkRow_message_id, hmid]
  · by_cases hin : is_processed mid db = true
    · rw [save_email_mem r mid nowA db hmid hin]
      exact save_email_mem r mid nowB db hmid hin
    · have hout : is_processed mid db = false := by
        revert hin; cases is_processed mid db <;> simp
      rw [save_email_absent r mid nowA db hmid hout]
      apply save_email_mem r mid nowB _ hmid
      simp [is_processed, mkRow_message_id, hmid]

/-- C1 witness: a concrete double save. -/
theorem C1_save_email_idempotent_witness :
    save_email rowStored "T2" (save_email rowStored "T1" []) =
      save_email rowStored "T1" [] ∧
    countId "mid-1" (save_email rowStored "T1" []) = 1 := by
  have h := C1_save_email_idempotent rowStored "mid-1" "T1" "T2" [] rfl
  refine ⟨h.2.2, ?_⟩
  have h2 := h.2.1 (by decide)
  have := h2.2.1
  rw [h2.2.2] at this
  exact this

/- ### Claim C8 -/

/-- C8 counterexample: `mark_processed` is a store operation other than the
initial insert, and it changes `processed_at` (not `notion_page_id`) of the
row with the given `message_id`, so `notion_page_id` is not the only mutable
field. -/
theorem C8_counterexample :
    mark_processed "mid-1" "T2" [rowStored] =
      [{ rowStored with processed_at := some "T2" }] ∧
    rowStored.processed_at = some "2024-01-15T10:00:00" ∧
    (some "T2" : Option String) ≠ some "2024-01-15T10:00:00" ∧
    ({ rowStored with processed_at := some "T2" } : EmailRecord).notion_page_id
      = rowStored.notion_page_id := by
  refine ⟨by decide, rfl, by decide, rfl⟩

/-- C8 amended: after a record is created, `notion_page_id` and
`processed_at` are the only mutable fields: `update_notion_page_id` rewrites
only `notion_page_id` of the rows with the given key and leaves every other
row identical; `mark_processed` rewrites only `processed_at` likewise; a
repeated `save_email` for an existing key changes nothing. -/
theorem C8_amended_frame (mid pid nowIso : String) (db : List EmailRecord) :
    List.Forall₂ (fun a b => sameExceptNotion a b ∧
      (a.message_id ≠ some mid → b = a) ∧
      (a.message_id = some mid → b.notion_page_id = some pid))
      db (update_notion_page_id mid pid db) ∧
    List.Forall₂ (fun a b => sameExceptProcessed a b ∧
      (a.message_id ≠ some mid → b = a) ∧
      (a.message_id = some mid → b.processed_at = some nowIso))
      db (mark_processed mid nowIso db) ∧
    (∀ r : EmailRecord, r.message_id = some mid →
      is_processed mid db = true → save_email r nowIso db = db) := by
  refine ⟨?_, ?_, fun r hr hin => save_email_mem r mid nowIso db hr hin⟩
  · induction db with
    | nil => exact List.Forall₂.nil
    | cons a db ih =>
      refine List.Forall₂.cons ?_ ih
      by_cases h : a.message_id = some mid
      · simp [update_notion_page_id, h, sameExceptNotion]
      · have hbeq : (a.message_id == some mid) = false := by
          simpa using h
        simp [update_notion_page_id, hbeq, sameExceptNotion, h]
  · induction db with
    | nil => exact List.Forall₂.nil
    | cons a db ih =>
      refine List.Forall₂.cons ?_ ih
      by_cases h : a.message_id = some mid
      · simp [mark_processed, h, sameExceptProcessed]
      · have hbeq : (a.message_id == some mid) = false := by
          simpa using h
        simp [mark_processed, hbeq, sameExceptProcessed, h]

/-- C8 amended witness: a repeated save over an existing key is a no-op. -/
theorem C8_amended_frame_witness :
    save_email rowStored "T9" [rowStored] = [rowStored] :=
  (C8_amended_frame "mid-1" "p" "T9" [rowStored]).2.2 rowStored rfl (by decide)

/- ### Claim C9 -/

/-- C9: the sink retry wrapper makes at most 3 calls; a success returns that
attempt's value immediately; a non-rate-limit failure (other API status or any
other exception) propagates immediately with no retry; a 429 is retried with
delays doubling from the 1-second base, and after the third failed attempt the
rate-limit error is re-raised with exactly the delays `[1, 2]` slept. -/
theorem C9_retry_policy (A : Type) (attempts : Nat → Outcome A) :
    (retry_with_backoff attempts 3 1).2.1 ≤ 3 ∧
    (∀ a, attempts 0 = .ok a →
      retry_with_backoff attempts 3 1 = (.ok (some a), 1, [])) ∧
    (∀ s, s ≠ 429 → attempts 0 = .api s →
      retry_with_backoff attempts 3 1 = (.error (.api s), 1, [])) ∧
    (attempts 0 = .exn →
      retry_with_backoff attempts 3 1 = (.error .exn, 1, [])) ∧
    (attempts 0 = .api 429 → ∀ a, attempts 1 = .ok a →
      retry_with_backoff attempts 3 1 = (.ok (some a), 2, [1])) ∧
    (attempts 0 = .api 429 → ∀ s, s ≠ 429 → attempts 1 = .api s →
      retry_with_backoff attempts 3 1 = (.error (.api s), 2, [1])) ∧
    (attempts 0 = .api 429 → attempts 1 = .exn →
      retry_with_backoff attempts 3 1 = (.error .exn, 2, [1])) ∧
    (attempts 0 = .api 429 → attempts 1 = .api 429 → ∀ a, attempts 2 = .ok a →
      retry_with_backoff attempts 3 1 = (.ok (some a), 3, [1, 2])) ∧
    (attempts 0 = .api 429 → attempts 1 = .api 429 →
      ∀ s, s ≠ 429 → attempts 2 = .api s →
      retry_with_backoff attempts 3 1 = (.error (.api s), 3, [1, 2])) ∧
    (attempts 0 = .api 429 → attempts 1 = .api 429 → attempts 2 = .exn →
      retry_with_backoff attempts 3 1 = (.error .exn, 3, [1, 2])) ∧
    (attempts 0 = .api 429 → attempts 1 = .api 429 → attempts 2 = .api 429 →
      retry_with_backoff attempts 3 1 = (.error (.api 429), 3, [1, 2])) := by
  constructor
  · rcases ha0 : attempts 0 with a | s | _
    · simp [retry_with_backoff, retryGo, ha0]
    · rcases eq_or_ne s 429 with rfl | hs
      · rcases ha1 : attempts 1 with a | s1 | _
        · simp [retry_with_backoff, retryGo, ha0, ha1]
        · rcases eq_or_ne s1 429 with rfl | hs1
          · rcases ha2 : attempts 2 with a | s2 | _
            · simp [retry_with_backoff, retryGo, ha0, ha1, ha2]
            · rcases eq_or_ne s2 429 with rfl | hs2
              · simp [retry_with_backoff, retryGo, ha0, ha1, ha2]
              · simp [retry_with_backoff, retryGo, ha0, ha1, ha2, hs2]
            · simp [retry_with_backoff, retryGo, ha0, ha1, ha2]
          · simp [retry_with_backoff, retryGo, ha0, ha1, hs1]
        · simp [retry_with_backoff, retryGo, ha0, ha1]
      · simp [retry_with_backoff, retryGo, ha0, hs]
    · simp [retry_with_backoff, retryGo, ha0]
  refine ⟨fun a ha0 => by simp [retry_with_backoff, retryGo, ha0],
    fun s hs ha0 => by simp [retry_with_backoff, retryGo, ha0, hs],
    fun ha0 => by simp [retry_with_backoff, retryGo, ha0],
    fun ha0 a ha1 => by simp [retry_with_backoff, retryGo, ha0, ha1],
    fun ha0 s hs ha1 => by simp [retry_with_backoff, retryGo, ha0, ha1, hs],
    fun ha0 ha1 => by simp [retry_with_backoff, retryGo, ha0, ha1],
    fun ha0 ha1 a ha2 => by simp [retry_with_backoff, retryGo, ha0, ha1, ha2],
    fun ha0 ha1 s hs ha2 => by
      simp [retry_with_backoff, retryGo, ha0, ha1, ha2, hs],
    fun ha0 ha1 ha2 => by simp [retry_with_backoff, retryGo, ha0, ha1, ha2],
    fun ha0 ha1 ha2 => by simp [retry_with_backoff, retryGo, ha0, ha1, ha2]⟩

/-- C9 witness: one rate-limited call followed by a success returns the
success after a single 1-second delay. -/
theorem C9_retry_policy_witness :
    retry_with_backoff attemptsW 3 1 = (.ok (some 7), 2, [1]) :=
  (C9_retry_policy Nat attemptsW).2.2.2.2.1 rfl 7 rfl

/- ### Supporting lemmas : first-maximum selection -/

/-- Python `max` as a left fold coincides with `List.argmax`'s fold: the first
element attaining the maximal key wins. -/
theorem pyMaxBy_argmax (key : A → Rat) (l : List A) (a : A) :
    List.foldl (List.argAux fun b c => key c < key b) (some a) l =
      some (pyMaxBy key a l) := by
  induction l generalizing a with
  | nil => rfl
  | cons d t ih =>
    simp only [List.foldl_cons, List.argAux, pyMaxBy]
    by_cases h : key a < key d <;> simp [h, ih]

/- ### Claim C2 -/

/-- C2: `get_primary_deadline` equals the specification's selection: drop the
candidates whose instant is not strictly after `now`; return the instant of
the highest-confidence survivor, ties resolved in favour of the
earliest-encountered candidate (`List.argmax` keeps the first maximiser);
return `none` when no candidate survives, whatever the confidences of the
discarded past candidates were. -/
theorem C2_get_primary_deadline_spec (now : Int) (dates : List DateRec) :
    get_primary_deadline now dates = primary_deadline_spec now dates := by
  rcases hfil : dates.filter (fun d => now < d.parsed_date) with _ | ⟨f, fs⟩
  · by_cases hd : dates.isEmpty <;>
      simp [get_primary_deadline, primary_deadline_spec, hfil, hd, List.argmax]
  · have hne : dates.isEmpty = false := by
      rcases dates with _ | ⟨x, xs⟩
      · simp at hfil
      · rfl
    simp only [get_primary_deadline, primary_deadline_spec, hfil, hne,
      Bool.false_eq_true, if_false]
    rw [List.argmax, List.foldl_cons]
    have h0 : List.argAux (fun b c => (fun d => d.confidence) c <
        (fun d => d.confidence) b) none f = some f := rfl
    rw [h0, pyMaxBy_argmax]
    rfl

/- ### Supporting lemmas : the From-header regex searches -/

/-- `takeWhile` runs through a block that wholly satisfies `p` and stops at a
first failing element. -/
theorem takeWhile_append_all (p : Char → Bool) (E : PyStr) (x : Char)
    (r : PyStr) (hE : ∀ c ∈ E, p c = true) (hx : p x = false) :
    (E ++ x :: r).takeWhile p = E := by
  induction E with
  | nil => simp [List.takeWhile_cons, hx]
  | cons e E ih =>
    have he : p e = true := hE e (List.mem_cons_self e E)
    simp only [List.cons_append, List.takeWhile_cons, he, if_true]
    rw [ih (fun c hc => hE c (List.mem_cons_of_mem e hc))]

/-- A bracket content of the shape `A@B` with nonempty `A`, `B` matches the
`[^>]+@[^>]+` test. -/
theorem hasInnerAt_of_split (A B : PyStr) (hA : A ≠ []) (hB : B ≠ []) :
    hasInnerAt (A ++ '@' :: B) = true := by
  rcases A with _ | ⟨a, A'⟩
  · exact absurd rfl hA
  rcases B.eq_nil_or_concat with rfl | ⟨B', b, rfl⟩
  · exact absurd rfl hB
  unfold hasInnerAt
  simp only [List.concat_eq_append]
  have hshape : ((a :: A' ++ '@' :: (B' ++ [b])).drop 1).dropLast =
      A' ++ '@' :: B' := by
    have h1 : (a :: A' ++ '@' :: (B' ++ [b])).drop 1 =
        (A' ++ '@' :: B') ++ [b] := by
      simp
    rw [h1, List.dropLast_concat]
  rw [hshape]
  simp

/-- The email regex finds the bracketed span: scanning a name part free of
`'<'`, the first `'<'` opens a span running to the final `'>'`, and the span
passes the interior-`'@'` test. -/
theorem bracketSearch_append (D E : PyStr) (hD : D.contains '<' = false)
    (hE : E.contains '>' = false) (hAt : hasInnerAt E = true) :
    bracketSearch (D ++ '<' :: (E ++ ['>'])) = some E := by
  induction D with
  | nil =>
    have h2 : List.takeWhile (fun x => !decide (x = '>')) (E ++ ['>']) = E := by
      apply takeWhile_append_all
      · intro c hc
        have hcne : c ≠ '>' := by
          intro hcc
          subst hcc
          simp_all
        simpa using hcne
      · simp
    have h1 : (E ++ ['>']).contains '>' = true := by simp
    simp [bracketSearch, h1, h2, hAt]
  | cons d D ih =>
    have hd : d ≠ '<' := by
      intro hdd
      subst hdd
      simp at hD
    have hD' : D.contains '<' = false := by
      simp at hD
      simpa using hD.2
    simpa [bracketSearch, hd] using ih hD'

/-- The name regex takes the nonempty text before the first `'<'`. -/
theorem nameSearch_append (D rest : PyStr) (hD : D.contains '<' = false) :
    nameSearch (D ++ '<' :: rest) = if D = [] then none else some D := by
  unfold nameSearch
  have ht : (D ++ '<' :: rest).takeWhile (· ≠ '<') = D := by
    apply takeWhile_append_all
    · intro c hc
      have hcne : c ≠ '<' := by
        intro hcc
        subst hcc
        simp_all
      simpa using hcne
    · simp
  rw [ht]
  by_cases hD0 : D = []
  · simp [hD0]
  · have hlen : D.length < (D ++ '<' :: rest).length := by
      simp
    simp [hD0, hlen]

/- ### Claim C6 -/

/-- C6 counterexample: on the header `john@x.com <john@x.com>`, which is of
the form `Name <email>`, the code returns `Unknown <john@x.com>` while the
claim's three-case function returns `john@x.com <john@x.com>`. -/
theorem C6_counterexample :
    parse_sender (("john@x.com <john@x.com>").data) =
      (("Unknown <john@x.com>").data) ∧
    sender_claim_spec (("john@x.com <john@x.com>").data) =
      (("john@x.com <john@x.com>").data) ∧
    parse_sender (("john@x.com <john@x.com>").data) ≠
      sender_claim_spec (("john@x.com <john@x.com>").data) := by
  refine ⟨by decide, by decide, by decide⟩

/-- C6 amended: sender normalization is the total four-case function: the
empty header yields the sentinel; with a bracketed email the result renders
the trimmed span as email, keeping the display name (text before the first
`'<'`, trimmed of whitespace and quotes) only when it is nonempty and differs
from the email, else `Unknown <email>`; with no bracketed email, a header
containing `'@'` and no space is rendered the same way with the trimmed whole
header as the email; every other header yields the sentinel. -/
theorem C6_amended_cases (h : PyStr) :
    (h = [] → parse_sender h = SENTINEL) ∧
    (∀ g, h ≠ [] → bracketSearch h = some g →
      parse_sender h = renderWithName h (pyStrip g)) ∧
    (h ≠ [] → bracketSearch h = none → h.contains '@' = true →
      h.contains ' ' = false → parse_sender h = renderWithName h (pyStrip h)) ∧
    (h ≠ [] → bracketSearch h = none →
      (h.contains '@' = false ∨ h.contains ' ' = true) →
      parse_sender h = SENTINEL) := by
  refine ⟨?_, ?_, ?_, ?_⟩
  · intro he
    subst he
    rfl
  · intro g hne hb
    have hemp : h.isEmpty = false := by
      simpa [List.isEmpty_iff] using hne
    unfold parse_sender renderWithName senderNameOf
    rw [hemp]
    simp only [Bool.false_eq_true, if_false, hb]
    rcases hn : nameSearch h with _ | g' <;> simp [hn]
  · intro hne hb hat hsp
    have hemp : h.isEmpty = false := by
      simpa [List.isEmpty_iff] using hne
    unfold parse_sender renderWithName senderNameOf
    rw [hemp]
    simp only [Bool.false_eq_true, if_false, hb, hat, hsp]
    rcases hn : nameSearch h with _ | g' <;> simp [hn]
  · intro hne hb hor
    have hemp : h.isEmpty = false := by
      simpa [List.isEmpty_iff] using hne
    unfold parse_sender
    rw [hemp]
    simp only [Bool.false_eq_true, if_false, hb]
    rcases hor with hat | hsp
    · have hat' : '@' ∉ h := by simpa using hat
      simp [hat']
    · have hsp' : ' ' ∈ h := by simpa using hsp
      simp [hsp']

/-- C6 amended witness: the normal bracketed form keeps its display name. -/
theorem C6_amended_cases_witness :
    parse_sender (("John Doe <john@x.com>").data) =
      (("John Doe <john@x.com>").data) := by
  have h := (C6_amended_cases (("John Doe <john@x.com>").data)).2.1
    (("john@x.com").data) (by decide) (by decide)
  rw [h]
  decide

/- ### Claim C10 -/

/-- C10: for a header of the bracketed form `D<E>` (no `'<'` in `D`, no `'>'`
in `E`, an `'@'` with text on both sides inside `E`), the display name is
preserved exactly when, after trimming whitespace and quotes, it is nonempty
and differs from the trimmed email; otherwise the result is `Unknown <E>`. -/
theorem C10_sender_edge (D E A B : PyStr)
    (hD : D.contains '<' = false) (hE : E.contains '>' = false)
    (hsplit : E = A ++ '@' :: B) (hA : A ≠ []) (hB : B ≠ []) :
    ((stripQuotes (pyStrip D) = [] ∨ stripQuotes (pyStrip D) = pyStrip E) →
      parse_sender (D ++ '<' :: (E ++ ['>'])) = fmtUnknown (pyStrip E)) ∧
    (stripQuotes (pyStrip D) ≠ [] → stripQuotes (pyStrip D) ≠ pyStrip E →
      parse_sender (D ++ '<' :: (E ++ ['>'])) =
        fmtNameEmail (stripQuotes (pyStrip D)) (pyStrip E)) := by
  have hAt : hasInnerAt E = true := by
    rw [hsplit]
    exact hasInnerAt_of_split A B hA hB
  have hb := bracketSearch_append D E hD hE hAt
  have hn := nameSearch_append D (E ++ ['>']) hD
  have hemp : (D ++ '<' :: (E ++ ['>'])).isEmpty = false := by
    rcases D <;> rfl
  constructor
  · intro hcase
    unfold parse_sender
    rw [hemp]
    simp only [Bool.false_eq_true, if_false, hb, hn]
    by_cases hD0 : D = []
    · simp [hD0]
    · simp only [hD0, if_false]
      rcases hcase with hc | hc <;> simp [hc]
  · intro hc1 hc2
    unfold parse_sender
    rw [hemp]
    simp only [Bool.false_eq_true, if_false, hb, hn]
    have hD0 : D ≠ [] := by
      intro hdd
      subst hdd
      exact hc1 rfl
    simp [hD0, hc1, hc2]

/-- C10 witness: a display name equal to the email is replaced by Unknown. -/
theorem C10_sender_edge_witness :
    parse_sender ((("user@x.com ").data) ++ '<' :: ((("user@x.com").data) ++ ['>'])) =
      (("Unknown <user@x.com>").data) := by
  have h := (C10_sender_edge (("user@x.com ").data) (("user@x.com").data)
      (("user").data) (("x.com").data) (by decide) (by decide) (by decide)
      (by decide) (by decide)).1 (Or.inr (by decide))
  rw [h]
  decide

/- ### Supporting lemmas : MIME walk selection -/

/-- If the by-content-type search finds `p0` first and `p0`'s payload decodes,
the decode-or-skip loop returns exactly that payload. -/
theorem firstDecoded_of_find (parts : List MimePart) (ct : String)
    (p0 : MimePart) (body : String)
    (hf : parts.find? (fun p => p.ctypeOf == ct) = some p0)
    (hp : p0.decodedPayload = some body) :
    firstDecoded parts ct = some body := by
  induction parts with
  | nil => simp at hf
  | cons q qs ih =>
    by_cases hq : q.ctypeOf = ct
    · have hqb : (q.ctypeOf == ct) = true := by simpa using hq
      simp only [List.find?_cons, hqb] at hf
      have hq0 : q = p0 := by injection hf
      subst hq0
      simp [firstDecoded, List.filterMap_cons, hq, hp]
    · have hqb : (q.ctypeOf == ct) = false := by simpa using hq
      simp only [List.find?_cons, hqb] at hf
      have := ih hf
      simpa [firstDecoded, List.filterMap_cons, hq] using this

/-- A decodable part of the right content type guarantees the loop succeeds. -/
theorem firstDecoded_isSome (parts : List MimePart) (ct : String)
    (p : MimePart) (hmem : p ∈ parts) (hct : p.ctypeOf = ct)
    (hp : (p.decodedPayload).isSome = true) :
    (firstDecoded parts ct).isSome = true := by
  rw [firstDecoded, List.head?_isSome]
  intro hnil
  rw [List.filterMap_eq_nil_iff] at hnil
  have := hnil p hmem
  rw [if_pos hct] at this
  rw [this] at hp
  simp at hp

/-- If the loop fails, every part of the right content type is undecodable. -/
theorem firstDecoded_eq_none (parts : List MimePart) (ct : String)
    (h : firstDecoded parts ct = none) :
    ∀ p ∈ parts, p.ctypeOf = ct → p.decodedPayload = none := by
  intro p hmem hct
  rw [firstDecoded, List.head?_eq_none_iff, List.filterMap_eq_nil_iff] at h
  have := h p hmem
  rwa [if_pos hct] at this

/- ### Claim C5 -/

/-- C5: on a multipart message, when the first `text/plain` part of the walk
(document order) decodes, its payload is the body and the content type used is
`text/plain`; whenever any decodable `text/plain` part exists the result is
never HTML-derived; HTML is used only when every `text/plain` part failed to
decode (for ordinary messages: when none exists); and with no textual part the
body is empty. -/
theorem C5_plain_preferred (f : String → String) (ct : String)
    (cs : List MimePart) :
    (∀ (p0 : MimePart) (body : String),
      (walk (.multi ct cs)).find? (fun p => p.ctypeOf == "text/plain") = some p0 →
      p0.decodedPayload = some body →
      get_text_from_email f (.multi ct cs) = (body, some "text/plain")) ∧
    ((∃ p ∈ walk (.multi ct cs), p.ctypeOf = "text/plain" ∧
        (p.decodedPayload).isSome = true) →
      (get_text_from_email f (.multi ct cs)).2 = some "text/plain") ∧
    ((get_text_from_email f (.multi ct cs)).2 = some "text/html" →
      ∀ p ∈ walk (.multi ct cs), p.ctypeOf = "text/plain" →
        p.decodedPayload = none) ∧
    ((∀ p ∈ walk (.multi ct cs),
        p.ctypeOf ≠ "text/plain" ∧ p.ctypeOf ≠ "text/html") →
      get_text_from_email f (.multi ct cs) = ("", none)) := by
  refine ⟨?_, ?_, ?_, ?_⟩
  · intro p0 body hf hp
    have h1 := firstDecoded_of_find (walk (.multi ct cs)) "text/plain" p0 body hf hp
    simp [get_text_from_email, h1]
  · rintro ⟨p, hmem, hct, hdec⟩
    have h1 := firstDecoded_isSome (walk (.multi ct cs)) "text/plain" p hmem hct hdec
    rcases hfd : firstDecoded (walk (.multi ct cs)) "text/plain" with _ | b
    · rw [hfd] at h1
      simp at h1
    · simp [get_text_from_email, hfd]
  · intro hres p hmem hct
    rcases hfd : firstDecoded (walk (.multi ct cs)) "text/plain" with _ | b
    · exact firstDecoded_eq_none _ _ hfd p hmem hct
    · rw [show get_text_from_email f (.multi ct cs) = (b, some "text/plain") by
        simp [get_text_from_email, hfd]] at hres
      simp at hres
  · intro hall
    have h1 : firstDecoded (walk (.multi ct cs)) "text/plain" = none := by
      rw [firstDecoded, List.head?_eq_none_iff, List.filterMap_eq_nil_iff]
      intro p hmem
      rw [if_neg (hall p hmem).1]
    have h2 : firstDecoded (walk (.multi ct cs)) "text/html" = none := by
      rw [firstDecoded, List.head?_eq_none_iff, List.filterMap_eq_nil_iff]
      intro p hmem
      rw [if_neg (hall p hmem).2]
    simp [get_text_from_email, h1, h2]

/-- C5 witness: a multipart message with both a plain and an HTML part yields
the plain part's text. -/
theorem C5_plain_preferred_witness :
    get_text_from_email (fun s => s) mimeW = ("plain body", some "text/plain") :=
  (C5_plain_preferred (fun s => s) "multipart/alternative"
    [.leaf "text/plain" (some "plain body"), .leaf "text/html" (some "<b>x</b>")]).1
    (.leaf "text/plain" (some "plain body")) "plain body" rfl rfl

/- ### Supporting lemmas : deduplication and stable descending sort -/

/-- A survivor of deduplication is found (as itself) at its key's first
occurrence in the input, and its key is outside the `seen` set. -/
theorem dedupGo_find (key : A → PyStr) (seen : List PyStr) (l : List A) :
    ∀ a ∈ dedupGo key seen l,
      key a ∉ seen ∧ l.find? (fun c => key c == key a) = some a := by
  induction l generalizing seen with
  | nil => simp [dedupGo]
  | cons b t ih =>
    intro a ha
    rw [dedupGo] at ha
    by_cases hcon : seen.contains (key b) = true
    · rw [if_pos hcon] at ha
      obtain ⟨h1, h2⟩ := ih seen a ha
      have hbmem : key b ∈ seen := by simpa using hcon
      have hne : (key b == key a) = false := by
        simp only [beq_eq_false_iff_ne]
        intro hk
        rw [hk] at hbmem
        exact h1 hbmem
      refine ⟨h1, ?_⟩
      simp only [List.find?_cons, hne]
      exact h2
    · rw [if_neg hcon] at ha
      rcases List.mem_cons.mp ha with rfl | ha'
      · refine ⟨by simpa using hcon, ?_⟩
        simp [List.find?_cons]
      · obtain ⟨h1, h2⟩ := ih (key b :: seen) a ha'
        have hanotb : key a ≠ key b := fun hk =>
          h1 (by rw [hk]; exact List.mem_cons_self _ _)
        have hne : (key b == key a) = false := by
          simp only [beq_eq_false_iff_ne]
          exact fun hk => hanotb hk.symm
        refine ⟨fun hs => h1 (List.mem_cons_of_mem _ hs), ?_⟩
        simp only [List.find?_cons, hne]
        exact h2

/-- Deduplication leaves pairwise-distinct keys. -/
theorem dedupGo_pairwise (key : A → PyStr) (seen : List PyStr) (l : List A) :
    (dedupGo key seen l).Pairwise (fun a b => key a ≠ key b) := by
  induction l generalizing seen with
  | nil => simp [dedupGo]
  | cons b t ih =>
    rw [dedupGo]
    by_cases hcon : seen.contains (key b) = true
    · rw [if_pos hcon]
      exact ih seen
    · rw [if_neg hcon]
      refine List.Pairwise.cons ?_ (ih (key b :: seen))
      intro a ha hk
      have h1 := (dedupGo_find key (key b :: seen) t a ha).1
      exact h1 (by rw [← hk]; exact List.mem_cons_self _ _)

/-- Inserting into the stable descending order permutes a cons. -/
theorem perm_insertDescBy (key : A → Rat) (x : A) (l : List A) :
    List.Perm (insertDescBy key x l) (x :: l) := by
  induction l with
  | nil => exact List.Perm.refl _
  | cons y t ih =>
    rw [insertDescBy]
    by_cases h : key y < key x
    · rw [if_pos h]
    · rw [if_neg h]
      exact (ih.cons y).trans (List.Perm.swap x y t)

/-- The stable descending sort is a permutation. -/
theorem perm_sortDescBy (key : A → Rat) (l : List A) :
    List.Perm (sortDescBy key l) l := by
  suffices h : ∀ acc : List A,
      List.Perm (List.foldl (fun acc x => insertDescBy key x acc) acc l)
        (acc ++ l) by
    simpa [sortDescBy] using h []
  induction l with
  | nil => intro acc; simp
  | cons x t ih =>
    intro acc
    rw [List.foldl_cons]
    refine (ih (insertDescBy key x acc)).trans ?_
    have h1 : List.Perm (insertDescBy key x acc ++ t) ((x :: acc) ++ t) :=
      (perm_insertDescBy key x acc).append_right t
    exact h1.trans List.perm_middle.symm

/-- `insertDescBy` preserves descending order. -/
theorem pairwise_insertDescBy (key : A → Rat) (x : A) (l : List A)
    (hl : l.Pairwise (fun a b => key b ≤ key a)) :
    (insertDescBy key x l).Pairwise (fun a b => key b ≤ key a) := by
  induction l with
  | nil => simp [insertDescBy]
  | cons y t ih =>
    rw [insertDescBy]
    rcases List.pairwise_cons.mp hl with ⟨hy, ht⟩
    by_cases h : key y < key x
    · rw [if_pos h]
      refine List.Pairwise.cons ?_ hl
      intro b hb
      rcases List.mem_cons.mp hb with rfl | hb'
      · exact le_of_lt h
      · exact le_trans (hy b hb') (le_of_lt h)
    · rw [if_neg h]
      refine List.Pairwise.cons ?_ (ih ht)
      intro b hb
      rcases List.mem_cons.mp ((perm_insertDescBy key x t).mem_iff.mp hb) with
        rfl | hb'
      · exact le_of_not_lt h
      · exact hy b hb'

/-- The sort output is descending in the key. -/
theorem pairwise_sortDescBy (key : A → Rat) (l : List A) :
    (sortDescBy key l).Pairwise (fun a b => key b ≤ key a) := by
  suffices h : ∀ acc : List A, acc.Pairwise (fun a b => key b ≤ key a) →
      (List.foldl (fun acc x => insertDescBy key x acc) acc l).Pairwise
        (fun a b => key b ≤ key a) by
    exact h [] (by simp)
  induction l with
  | nil =>
    intro acc hacc
    simpa
  | cons x t ih =>
    intro acc hacc
    rw [List.foldl_cons]
    exact ih _ (pairwise_insertDescBy key x acc hacc)

/-- The shared post-processing of both extractors: dedup by key (first
occurrence wins), stable descending sort on the confidence, cut to the top
`k`.  The output is capped, descending, has pairwise-distinct keys, and every
output element is exactly the first input candidate carrying its key. -/
theorem postProc_props (key : A → PyStr) (conf : A → Rat) (raw : List A)
    (k : Nat) :
    ((sortDescBy conf (dedupFirstBy key raw)).take k).length ≤ k ∧
    ((sortDescBy conf (dedupFirstBy key raw)).take k).Pairwise
      (fun a b => conf b ≤ conf a) ∧
    ((sortDescBy conf (dedupFirstBy key raw)).take k).Pairwise
      (fun a b => key a ≠ key b) ∧
    (∀ r ∈ (sortDescBy conf (dedupFirstBy key raw)).take k,
      raw.find? (fun c => key c == key r) = some r) := by
  refine ⟨List.length_take_le _ _, ?_, ?_, ?_⟩
  · exact List.Pairwise.sublist (List.take_sublist _ _) (pairwise_sortDescBy conf _)
  · have hdedup := dedupGo_pairwise key [] raw
    have hsort : (sortDescBy conf (dedupFirstBy key raw)).Pairwise
        (fun a b => key a ≠ key b) :=
      ((perm_sortDescBy conf _).pairwise_iff (fun h hk => h hk.symm)).mpr hdedup
    exact List.Pairwise.sublist (List.take_sublist _ _) hsort
  · intro r hr
    have hr1 : r ∈ sortDescBy conf (dedupFirstBy key raw) :=
      (List.take_sublist _ _).mem hr
    have hr2 : r ∈ dedupFirstBy key raw :=
      (perm_sortDescBy conf _).mem_iff.mp hr1
    exact (dedupGo_find key [] raw r hr2).2

/- ### Claim C3 -/

/-- C3: for every oracle behaviour and every text, `extract_dates` returns at
most 5 candidates and `extract_action_items` at most 10; both lists are
sorted by descending confidence, carry pairwise-distinct matched texts, and
each returned element is the first raw candidate with its text (first
occurrence wins the dedup).  Fifteen verb-start lines produce exactly 10
items, all `verb_start` at confidence 0.9. -/
theorem C3_caps_order_dedup :
    (∀ (parse : PyStr → Option Int) (finditer : String → PyStr → List PyStr)
        (text : PyStr),
      (extract_dates parse finditer text).length ≤ 5 ∧
      (extract_dates parse finditer text).Pairwise
        (fun a b => b.confidence ≤ a.confidence) ∧
      (extract_dates parse finditer text).Pairwise (fun a b => a.text ≠ b.text) ∧
      (∀ r ∈ extract_dates parse finditer text,
        (rawDateCands parse finditer text).find?
          (fun c => c.text == r.text) = some r)) ∧
    (∀ text : PyStr,
      (extract_action_items text).length ≤ 10 ∧
      (extract_action_items text).Pairwise
        (fun a b => b.confidence ≤ a.confidence) ∧
      (extract_action_items text).Pairwise (fun a b => a.text ≠ b.text) ∧
      (∀ r ∈ extract_action_items text,
        (rawActionCands text).find? (fun c => c.text == r.text) = some r)) ∧
    ((extract_action_items fifteenLines).length = 10 ∧
      (extract_action_items fifteenLines).all
        (fun r => r.method == "verb_start" && r.confidence == mkRat 9 10) =
        true) := by
  refine ⟨?_, ?_, by decide, by decide⟩
  · intro parse finditer text
    by_cases he : text.isEmpty = true
    · simp [extract_dates, he]
    · have hf : text.isEmpty = false := by
        revert he
        cases text.isEmpty <;> simp
      have h := postProc_props (fun d : DateRec => d.text)
        (fun d : DateRec => d.confidence) (rawDateCands parse finditer text) 5
      simpa [extract_dates, hf, dedupFirstBy] using h
  · intro text
    by_cases he : text.isEmpty = true
    · simp [extract_action_items, he]
    · have hf : text.isEmpty = false := by
        revert he
        cases text.isEmpty <;> simp
      have h := postProc_props (fun a : ActionRec => a.text)
        (fun a : ActionRec => a.confidence) (rawActionCands text) 10
      simpa [extract_action_items, hf, dedupFirstBy] using h

/-- C3 witness: on a text whose whole-body parse succeeds, the single
candidate is returned and is its own first occurrence. -/
theorem C3_caps_order_dedup_witness :
    (rawDateCands parseHello finditerEmpty (("hello world").data)).find?
      (fun c => c.text == helloCand.text) = some helloCand ∧
    (extract_dates parseHello finditerEmpty (("hello world").data)).length ≤ 5 := by
  have h := C3_caps_order_dedup
  refine ⟨(h.1 parseHello finditerEmpty (("hello world").data)).2.2.2 helloCand
    (by decide), (h.1 parseHello finditerEmpty (("hello world").data)).1⟩

/- ### Supporting lemmas : the first maximal candidate heads the sort -/

/-- Inserting a strictly dominating element puts it in front. -/
theorem insertDescBy_head_of_lt (key : A → Rat) (x : A) (l : List A)
    (h : ∀ y ∈ l, key y < key x) : (insertDescBy key x l).head? = some x := by
  cases l with
  | nil => rfl
  | cons y t =>
    rw [insertDescBy, if_pos (h y (List.mem_cons_self y t))]
    rfl

/-- Inserting a dominated element keeps the head. -/
theorem insertDescBy_head_of_le (key : A → Rat) (z x : A) (t : List A)
    (h : ¬ key x < key z) :
    (insertDescBy key z (x :: t)).head? = some x := by
  rw [insertDescBy, if_neg h]
  rfl

/-- The head of the stable descending sort is the first element attaining the
maximal key: for a decomposition `l = pre ++ x :: suf` where everything in
`pre` is strictly below `x` and nothing in `l` exceeds `x`, the sorted list
starts with `x`. -/
theorem sortDescBy_head (key : A → Rat) (pre : List A) (x : A) :
    ∀ suf l, l = pre ++ x :: suf → (∀ y ∈ pre, key y < key x) →
      (∀ y ∈ l, key y ≤ key x) → (sortDescBy key l).head? = some x := by
  intro suf
  induction suf using List.reverseRecOn with
  | nil =>
    intro l hl hpre _
    subst hl
    have hfold : sortDescBy key (pre ++ [x]) = insertDescBy key x (sortDescBy key pre) := by
      simp [sortDescBy, List.foldl_append]
    rw [hfold]
    apply insertDescBy_head_of_lt
    intro y hy
    exact hpre y ((perm_sortDescBy key pre).mem_iff.mp hy)
  | append_singleton suf z ih =>
    intro l hl hpre hall
    subst hl
    have hfold : sortDescBy key (pre ++ x :: (suf ++ [z])) =
        insertDescBy key z (sortDescBy key (pre ++ x :: suf)) := by
      have : pre ++ x :: (suf ++ [z]) = (pre ++ x :: suf) ++ [z] := by simp
      rw [this]
      simp [sortDescBy, List.foldl_append]
    rw [hfold]
    have hhead := ih (pre ++ x :: suf) rfl hpre (by
      intro y hy
      exact hall y (by
        rcases List.mem_append.mp hy with h | h
        · exact List.mem_append_left _ h
        · rcases List.mem_cons.mp h with rfl | h
          · exact List.mem_append_right _ (List.mem_cons_self _ _)
          · exact List.mem_append_right _
              (List.mem_cons_of_mem _ (List.mem_append_left _ h))))
    have hz : ¬ key x < key z := by
      have hzle := hall z (by
        refine List.mem_append_right _ ?_
        exact List.mem_cons_of_mem _ (List.mem_append_right _ (List.mem_cons_self _ _)))
      exact not_lt_of_le hzle
    rcases hsort : sortDescBy key (pre ++ x :: suf) with _ | ⟨h0, t0⟩
    · rw [hsort] at hhead
      simp at hhead
    · rw [hsort] at hhead
      have hx0 : h0 = x := by
        simpa using hhead
      subst hx0
      exact insertDescBy_head_of_le key z h0 t0 hz

/-- Deduplication keeps an element whose key does not occur before it, and
everything surviving in front of it comes from the original prefix. -/
theorem dedupGo_decomp (key : A → PyStr) :
    ∀ (pre : List A) (seen : List PyStr) (x : A) (suf : List A),
      key x ∉ seen → (∀ y ∈ pre, key y ≠ key x) →
      ∃ dpre dsuf, dedupGo key seen (pre ++ x :: suf) = dpre ++ x :: dsuf ∧
        ∀ y ∈ dpre, y ∈ pre := by
  intro pre
  induction pre with
  | nil =>
    intro seen x suf hx _
    refine ⟨[], dedupGo key (key x :: seen) suf, ?_, by simp⟩
    rw [List.nil_append, dedupGo,
      if_neg (fun hcc => hx (by simpa using hcc))]
    rfl
  | cons b pre ih =>
    intro seen x suf hx hpre
    have hbx : key b ≠ key x := hpre b (List.mem_cons_self _ _)
    by_cases hcon : seen.contains (key b) = true
    · obtain ⟨dpre, dsuf, heq, hsub⟩ := ih seen x suf hx
        (fun y hy => hpre y (List.mem_cons_of_mem _ hy))
      refine ⟨dpre, dsuf, ?_, fun y hy => List.mem_cons_of_mem _ (hsub y hy)⟩
      rw [List.cons_append, dedupGo, if_pos hcon]
      exact heq
    · have hx' : key x ∉ key b :: seen := by
        intro hmem
        rcases List.mem_cons.mp hmem with h | h
        · exact hbx h.symm
        · exact hx h
      obtain ⟨dpre, dsuf, heq, hsub⟩ := ih (key b :: seen) x suf hx'
        (fun y hy => hpre y (List.mem_cons_of_mem _ hy))
      refine ⟨b :: dpre, dsuf, ?_, ?_⟩
      · rw [List.cons_append, dedupGo, if_neg hcon, heq]
        rfl
      · intro y hy
        rcases List.mem_cons.mp hy with rfl | hy'
        · exact List.mem_cons_self _ _
        · exact List.mem_cons_of_mem _ (hsub y hy')

/-- Every raw date candidate carries confidence at most 0.9. -/
theorem rawDateCands_conf_le (parse : PyStr → Option Int)
    (finditer : String → PyStr → List PyStr) (text : PyStr) :
    ∀ r ∈ rawDateCands parse finditer text, r.confidence ≤ mkRat 9 10 := by
  intro r hr
  unfold rawDateCands at hr
  rcases List.mem_append.mp hr with hr' | hr3
  · rcases List.mem_append.mp hr' with hr1 | hr2
    · rcases hp : parse text with _ | v
      · rw [hp] at hr1
        simp at hr1
      · rw [hp] at hr1
        rcases List.mem_singleton.mp hr1 with rfl
        exact show mkRat 8 10 ≤ mkRat 9 10 from by decide
    · rcases List.mem_flatMap.mp hr2 with ⟨pat, _, hmem⟩
      rcases List.mem_filterMap.mp hmem with ⟨m, _, hsome⟩
      rcases hp : parse m with _ | v
      · rw [hp] at hsome
        simp at hsome
      · rw [hp] at hsome
        simp only [Option.map_some', Option.some.injEq] at hsome
        subst hsome
        exact le_refl _
  · rcases List.mem_filterMap.mp hr3 with ⟨s, _, hsome⟩
    by_cases hk : (DATE_KEYWORDS.any fun k => containsSub k (pyLower s)) = true
    · rw [if_pos hk] at hsome
      rcases hp : parse s with _ | v
      · rw [hp] at hsome
        simp at hsome
      · rw [hp] at hsome
        simp only [Option.map_some', Option.some.injEq] at hsome
        subst hsome
        exact show mkRat 7 10 ≤ mkRat 9 10 from by decide
    · rw [if_neg hk] at hsome
      simp at hsome

/- ### Claim C7 -/

/-- C7 counterexample: on the scenario body the extractor returns exactly one
action item, produced by the imperative heuristic at confidence 0.7 — not a
`please_verb` item at 0.8: the imperative heuristic fires first on the same
line, and deduplication by line text silently drops the later `please_verb`
candidate. -/
theorem C7_counterexample :
    extract_action_items scenarioBody = [ceActionItem] ∧
    ceActionItem.method ≠ "please_verb" ∧
    ceActionItem.confidence ≠ mkRat 8 10 := by
  refine ⟨by decide, by decide, by decide⟩

/-- C7 amended: on the scenario body the extractor yields exactly one action
item (method `imperative`, confidence 0.7, verb `submit`); link extraction
returns exactly the one URL with its trailing period; and for any oracle
behaviour in which the weekday pattern matches `next monday` and the parse of
that phrase succeeds, the top-ranked date candidate is `next monday` with
confidence 0.9 and method `pattern_match`. -/
theorem C7_amended_scenario (parse : PyStr → Option Int)
    (finditer : String → PyStr → List PyStr) (t : Int)
    (hfind : finditer PATTERN_WEEKDAY (pyLower scenarioBody) =
      [("next monday").data])
    (hparse : parse (("next monday").data) = some t) :
    extract_action_items scenarioBody = [ceActionItem] ∧
    extract_links scenarioBody = [(("https://x.co/report.").data)] ∧
    (extract_dates parse finditer scenarioBody).head? = some
      ⟨("next monday").data, t, mkRat 9 10, "pattern_match"⟩ := by
  refine ⟨by decide, by decide, ?_⟩
  set r0 : DateRec := ⟨("next monday").data, t, mkRat 9 10, "pattern_match"⟩
    with hr0
  set rest2 : List DateRec := (DATE_PATTERNS.tail).flatMap (fun pat =>
    (finditer pat (pyLower scenarioBody)).filterMap (fun m =>
      (parse m).map (fun v =>
        (⟨m, v, mkRat 9 10, "pattern_match"⟩ : DateRec)))) with hrest2
  set m3v : List DateRec := (splitRuns scenarioBody).filterMap (fun s =>
    if DATE_KEYWORDS.any (fun k => containsSub k (pyLower s)) then
      (parse s).map (fun v =>
        (⟨pyStrip s, v, mkRat 7 10, "keyword_context"⟩ : DateRec))
    else none) with hm3v
  have hm2 : DATE_PATTERNS.flatMap (fun pat =>
      (finditer pat (pyLower scenarioBody)).filterMap (fun m =>
        (parse m).map (fun v =>
          (⟨m, v, mkRat 9 10, "pattern_match"⟩ : DateRec)))) = r0 :: rest2 := by
    rw [show DATE_PATTERNS = PATTERN_WEEKDAY :: DATE_PATTERNS.tail from rfl,
      List.flatMap_cons, hfind]
    simp [hparse, hr0, hrest2]
  suffices hcont : ∀ pre suf : List DateRec,
      rawDateCands parse finditer scenarioBody = pre ++ r0 :: suf →
      (∀ y ∈ pre, y.text ≠ r0.text ∧ y.confidence < mkRat 9 10) →
      (extract_dates parse finditer scenarioBody).head? = some r0 by
    rcases hp : parse scenarioBody with _ | v
    · refine hcont [] (rest2 ++ m3v) ?_ (by simp)
      unfold rawDateCands
      rw [hp, hm2]
      simp [hrest2, hm3v]
    · refine hcont [⟨scenarioBody, v, mkRat 8 10, "dateparser_full"⟩]
        (rest2 ++ m3v) ?_ ?_
      · unfold rawDateCands
        rw [hp, hm2]
        simp [hrest2, hm3v, show ¬ (scenarioBody.length > 100) from by decide]
      · intro y hy
        rcases List.mem_singleton.mp hy with rfl
        exact ⟨show scenarioBody ≠ ("next monday").data from by decide,
          show mkRat 8 10 < mkRat 9 10 from by decide⟩
  intro pre suf hraw hprop
  obtain ⟨dpre, dsuf, hded, hsub⟩ := dedupGo_decomp (fun d : DateRec => d.text)
    pre [] r0 suf (by simp) (fun y hy => (hprop y hy).1)
  have hldec : dedupFirstBy (fun d : DateRec => d.text)
      (rawDateCands parse finditer scenarioBody) = dpre ++ r0 :: dsuf := by
    show dedupGo (fun d : DateRec => d.text) []
      (rawDateCands parse finditer scenarioBody) = dpre ++ r0 :: dsuf
    rw [hraw]
    exact hded
  have hhead : (sortDescBy (fun d : DateRec => d.confidence)
      (dedupFirstBy (fun d : DateRec => d.text)
        (rawDateCands parse finditer scenarioBody))).head? = some r0 := by
    apply sortDescBy_head (fun d : DateRec => d.confidence) dpre r0 dsuf _ hldec
    · intro y hy
      exact (hprop y (hsub y hy)).2
    · intro y hy
      have hfind := (dedupGo_find (fun d : DateRec => d.text) []
        (rawDateCands parse finditer scenarioBody) y
        (show y ∈ dedupGo (fun d : DateRec => d.text) []
          (rawDateCands parse finditer scenarioBody) from hy)).2
      have hmem : y ∈ rawDateCands parse finditer scenarioBody :=
        List.mem_of_find?_eq_some hfind
      exact rawDateCands_conf_le parse finditer scenarioBody y hmem
  have hemp : scenarioBody.isEmpty = false := by decide
  unfold extract_dates
  rw [hemp]
  simp only [Bool.false_eq_true, if_false]
  rcases hs : sortDescBy (fun d : DateRec => d.confidence)
      (dedupFirstBy (fun d : DateRec => d.text)
        (rawDateCands parse finditer scenarioBody)) with _ | ⟨a, rest⟩
  · rw [hs] at hhead
    simp at hhead
  · rw [hs] at hhead
    have ha : a = r0 := by
      simpa using hhead
    subst ha
    simp [List.take_succ_cons]

/-- C7 amended witness: concrete oracles realising the scenario. -/
theorem C7_amended_scenario_witness :
    extract_links scenarioBody = [(("https://x.co/report.").data)] ∧
    (extract_dates parseW finditerW scenarioBody).head? = some
      { text := ("next monday").data, parsed_date := 42,
        confidence := mkRat 9 10, method := "pattern_match" } := by
  have h := C7_amended_scenario parseW finditerW 42 (by decide) (by decide)
  exact ⟨h.2.1, h.2.2⟩

/- ### Supporting lemmas : chunking -/

/-- Stripping only shortens a string. -/
theorem stripWith_length_le (p : Char → Bool) (l : PyStr) :
    (stripWith p l).length ≤ l.length := by
  unfold stripWith
  have h1 : (l.dropWhile p).length ≤ l.length :=
    (List.dropWhile_sublist _).length_le
  have h2 : ((l.dropWhile p).reverse.dropWhile p).length ≤
      (l.dropWhile p).reverse.length := (List.dropWhile_sublist _).length_le
  simp only [List.length_reverse] at h2 ⊢
  omega

/-- Stripping is the identity on a string none of whose characters qualify. -/
theorem stripWith_eq_self (p : Char → Bool) (l : PyStr)
    (h : ∀ c ∈ l, p c = false) : stripWith p l = l := by
  unfold stripWith
  have h1 : l.dropWhile p = l := by
    cases l with
    | nil => rfl
    | cons a t => simp [List.dropWhile_cons, h a (List.mem_cons_self a t)]
  rw [h1]
  have h2 : l.reverse.dropWhile p = l.reverse := by
    cases hrev : l.reverse with
    | nil => rfl
    | cons a t =>
      have ha : p a = false := h a (by
        rw [← List.mem_reverse, hrev]
        exact List.mem_cons_self _ _)
      simp [List.dropWhile_cons, ha]
  rw [h2, List.reverse_reverse]

/-- `rfind` fails exactly on strings not containing the character. -/
theorem rfindIdx_eq_none_iff (c : Char) (l : PyStr) :
    rfindIdx c l = none ↔ c ∉ l := by
  induction l with
  | nil => simp [rfindIdx]
  | cons a t ih =>
    rw [rfindIdx]
    rcases hr : rfindIdx c t with _ | i
    · rw [hr] at ih
      by_cases hac : a = c
      · simp [hac]
      · rw [if_neg hac]
        constructor
        · intro _
          simp only [List.mem_cons, not_or]
          exact ⟨fun h => hac h.symm, ih.mp rfl⟩
        · intro _
          rfl
    · have hmem : c ∈ t := by
        by_contra hm
        rw [ih.mpr hm] at hr
        exact Option.noConfusion hr
      simp [hmem]

/-- What a successful `rfind` means: the character sits at the returned index
and nowhere later. -/
theorem rfindIdx_spec (c : Char) (l : PyStr) (p : Nat)
    (h : rfindIdx c l = some p) :
    p < l.length ∧ l.getD p ' ' = c ∧
      ∀ j, p < j → j < l.length → l.getD j ' ' ≠ c := by
  induction l generalizing p with
  | nil => simp [rfindIdx] at h
  | cons a t ih =>
    rw [rfindIdx] at h
    rcases hr : rfindIdx c t with _ | i
    · rw [hr] at h
      by_cases hac : a = c
      · rw [if_pos hac] at h
        have hp : p = 0 := by
          injection h with h'
          omega
        subst hp
        have hnotm : c ∉ t := (rfindIdx_eq_none_iff c t).mp hr
        refine ⟨by simp, by simpa using hac, ?_⟩
        intro j hj0 hjlen hc
        rcases j with _ | j'
        · omega
        · have hj' : j' < t.length := by
            simpa using hjlen
          rw [List.getD_cons_succ] at hc
          rw [List.getD_eq_getElem t ' ' hj'] at hc
          exact hnotm (hc ▸ List.getElem_mem hj')
      · rw [if_neg hac] at h
        exact Option.noConfusion h
    · rw [hr] at h
      obtain ⟨h1, h2, h3⟩ := ih i hr
      have hp : p = i + 1 := by
        injection h with h'
        omega
      subst hp
      refine ⟨by simpa using h1, by simpa using h2, ?_⟩
      intro j hj0 hjlen hc
      rcases j with _ | j'
      · omega
      · have hj' : j' < t.length := by simpa using hjlen
        rw [List.getD_cons_succ] at hc
        exact h3 j' (by omega) hj' hc

/-- The source cut rule and the amended specification's cut rule agree: the
code cuts right after the last period whenever the window contains one (also
when that period ends the window, where the hard cut lands on the same spot),
and hard otherwise. -/
theorem windowEnd_eq_amended (m : Nat) (t : PyStr) (s : Nat) :
    windowEnd m t s = windowEndAmended m t s := by
  unfold windowEnd windowEndAmended
  dsimp only
  set w : PyStr := (t.drop s).take (min (s + m) t.length - s) with hw
  have hwlen : w.length ≤ min (s + m) t.length - s := by
    rw [hw, List.length_take, List.length_drop]
    exact min_le_left _ _
  rcases hr : rfindIdx '.' w with _ | p
  · dsimp only
    have hnm : '.' ∉ w := (rfindIdx_eq_none_iff '.' w).mp hr
    rw [if_neg hnm]
  · dsimp only
    obtain ⟨h1, h2, h3⟩ := rfindIdx_spec '.' w p hr
    have hmem : '.' ∈ w := by
      rw [List.getD_eq_getElem w ' ' h1] at h2
      exact h2 ▸ List.getElem_mem h1
    rw [if_pos hmem]
    have hfg : Nat.findGreatest (fun i => w.getD i ' ' = '.') (w.length - 1) = p := by
      rw [Nat.findGreatest_eq_iff]
      refine ⟨by omega, fun _ => h2, ?_⟩
      intro n hn1 hn2 hP
      exact h3 n hn1 (by omega) hP
    rw [hfg]
    by_cases hlt : s + p + 1 < min (s + m) t.length
    · rw [if_pos hlt]
    · rw [if_neg hlt]
      omega

/-- The cut point lies within the window: at most `maxChars` past `start` and
never past the end of the text. -/
theorem windowEnd_le (m : Nat) (t : PyStr) (s : Nat) :
    windowEnd m t s ≤ min (s + m) t.length := by
  unfold windowEnd
  dsimp only
  rcases hr : rfindIdx '.' ((t.drop s).take (min (s + m) t.length - s)) with _ | p
  · dsimp only
    exact le_refl _
  · dsimp only
    split
    · omega
    · exact le_refl _

/-- The loop makes strict progress. -/
theorem lt_windowEnd (m : Nat) (t : PyStr) (s : Nat) (hs : s < t.length)
    (hm : 0 < m) : s < windowEnd m t s := by
  unfold windowEnd
  dsimp only
  have h0 : s < min (s + m) t.length := lt_min (by omega) hs
  rcases hr : rfindIdx '.' ((t.drop s).take (min (s + m) t.length - s)) with _ | p
  · dsimp only
    exact h0
  · dsimp only
    split <;> omega

/-- Every chunk the loop emits fits in `maxChars` characters. -/
theorem chunkLoop_mem_le (m : Nat) (t : PyStr) :
    ∀ n s, t.length - s = n → ∀ c ∈ chunkLoop m t s, c.length ≤ m := by
  intro n
  induction n using Nat.strong_induction_on with
  | _ n ih =>
    intro s hns c hc
    rw [chunkLoop] at hc
    split at hc
    case isTrue h =>
      rcases List.mem_cons.mp hc with rfl | hc'
      · have hb1 : (((t.drop s).take (windowEnd m t s - s))).length ≤
            windowEnd m t s - s := by
          simp [List.length_take]
        have hb2 := stripWith_length_le pyIsSpace
          ((t.drop s).take (windowEnd m t s - s))
        have hb3 := windowEnd_le m t s
        have : windowEnd m t s - s ≤ m := by omega
        calc (pyStrip ((t.drop s).take (windowEnd m t s - s))).length
            ≤ ((t.drop s).take (windowEnd m t s - s)).length := hb2
          _ ≤ windowEnd m t s - s := hb1
          _ ≤ m := this
      · have hlt := lt_windowEnd m t s h.1 h.2
        exact ih (t.length - windowEnd m t s) (by omega) (windowEnd m t s) rfl c hc'
    case isFalse h => simp at hc

/-- The loop materialises exactly the amended description's cut list. -/
theorem chunkLoop_eq_chunksVia (m : Nat) (t : PyStr) :
    ∀ n s, t.length - s = n → chunkLoop m t s = chunksVia t s (cutList m t s) := by
  intro n
  induction n using Nat.strong_induction_on with
  | _ n ih =>
    intro s hns
    rw [chunkLoop, cutList]
    by_cases h : s < t.length ∧ 0 < m
    · rw [dif_pos h, dif_pos h, chunksVia, ← windowEnd_eq_amended]
      have hlt := lt_windowEnd m t s h.1 h.2
      rw [ih (t.length - windowEnd m t s) (by omega) (windowEnd m t s) rfl]
    · rw [dif_neg h, dif_neg h]
      rfl

/- ### Claim C4 -/

/-- C4 counterexample: on a 3001-character text whose only period sits at
index 1, the code cuts the first window right after that period (first chunk
`"a."`), while the claim's midpoint rule would cut hard at the 3000-character
boundary; the two chunkings differ. -/
theorem C4_counterexample :
    (chunk_text 3000 ceChunkText).head? = some ['a', '.'] ∧
    (chunk_text_claim 3000 ceChunkText).head? = some (ceChunkText.take 3000) ∧
    chunk_text 3000 ceChunkText ≠ chunk_text_claim 3000 ceChunkText := by
  have hchars : ∀ c ∈ ceChunkText, pyIsSpace c = false := by
    intro c hc
    rcases List.mem_cons.mp hc with rfl | hc
    · decide
    rcases List.mem_cons.mp hc with rfl | hc
    · decide
    · rw [List.eq_of_mem_replicate hc]
      decide
  have hstrip : pyStrip ceChunkText = ceChunkText :=
    stripWith_eq_self pyIsSpace ceChunkText hchars
  have hlen : ceChunkText.length = 3001 := by
    rw [ceChunkText, List.length_cons, List.length_cons, List.length_replicate]
  have htake : ceChunkText.take 3000 = 'a' :: '.' :: List.replicate 2998 'b' := by
    show List.take (2998 + 1 + 1) ('a' :: '.' :: List.replicate 2999 'b') = _
    rw [List.take_succ_cons, List.take_succ_cons, List.take_replicate]
    rfl
  have htakelen : (ceChunkText.take 3000).length = 3000 := by
    rw [List.length_take]
    omega
  have hrepnone : rfindIdx '.' (List.replicate 2998 'b') = none := by
    rw [rfindIdx_eq_none_iff, List.mem_replicate]
    intro hcc
    exact absurd hcc.2 (by decide)
  have hrfind : rfindIdx '.' (ceChunkText.take 3000) = some 1 := by
    rw [htake, rfindIdx]
    rw [show rfindIdx '.' ('.' :: List.replicate 2998 'b') = some 0 by
      rw [rfindIdx, hrepnone]
      rfl]
  have hmin : min (0 + 3000) ceChunkText.length = 3000 := by omega
  have hwin : (ceChunkText.drop 0).take (min (0 + 3000) ceChunkText.length - 0) =
      ceChunkText.take 3000 := by
    rw [hmin, List.drop_zero, Nat.sub_zero]
  have hwe : windowEnd 3000 ceChunkText 0 = 2 := by
    unfold windowEnd
    dsimp only
    rw [hwin, hrfind]
    dsimp only
    rw [hmin]
    norm_num
  have hweclaim : windowEndClaim 3000 ceChunkText 0 = 3000 := by
    unfold windowEndClaim
    dsimp only
    rw [hwin, hrfind]
    dsimp only
    rw [if_neg (by rw [htakelen]; omega :
      ¬ 2 * 1 > (ceChunkText.take 3000).length)]
    exact hmin
  have hnotshort : ¬ ceChunkText.length ≤ 3000 := by omega
  have hemp : ceChunkText.isEmpty = false := rfl
  have hchunk1 : pyStrip ((ceChunkText.drop 0).take (windowEnd 3000 ceChunkText 0 - 0)) =
      ['a', '.'] := by
    rw [hwe, List.drop_zero]
    decide
  have hcode : (chunk_text 3000 ceChunkText).head? = some ['a', '.'] := by
    unfold chunk_text
    rw [hemp]
    simp only [Bool.false_eq_true, if_false]
    rw [hstrip, if_neg hnotshort]
    rw [chunkLoop, dif_pos (by constructor <;> omega : 0 < ceChunkText.length ∧ 0 < 3000)]
    rw [hchunk1]
    rfl
  have hchunk1c : pyStrip ((ceChunkText.drop 0).take (windowEndClaim 3000 ceChunkText 0 - 0)) =
      ceChunkText.take 3000 := by
    rw [hweclaim, List.drop_zero, Nat.sub_zero]
    refine stripWith_eq_self pyIsSpace _ ?_
    intro c hc
    exact hchars c (List.take_subset 3000 ceChunkText hc)
  have hclaim : (chunk_text_claim 3000 ceChunkText).head? = some (ceChunkText.take 3000) := by
    unfold chunk_text_claim
    rw [hemp]
    simp only [Bool.false_eq_true, if_false]
    rw [hstrip, if_neg hnotshort]
    rw [chunkLoopClaim, dif_pos (by constructor <;> omega : 0 < ceChunkText.length ∧ 0 < 3000)]
    rw [hchunk1c]
    have hne : (ceChunkText.take 3000).isEmpty = false := by
      rw [htake]
      rfl
    simp only [List.filter_cons, hne, Bool.not_false, if_true]
    rfl
  refine ⟨hcode, hclaim, ?_⟩
  intro heq
  rw [heq, hclaim] at hcode
  have : (['a', '.'] : PyStr) = ceChunkText.take 3000 := by
    injection hcode.symm
  have hlen2 := congrArg List.length this
  rw [htakelen] at hlen2
  simp at hlen2

/-- C4 amended: a text whose stripped form fits in 3000 characters comes back
as that single stripped chunk; every emitted chunk has at most 3000
characters; and the chunking equals the amended description: sequential
windows of at most 3000 characters, each cut just after the last period the
window contains, else hard at the window boundary, stripped, empties
dropped. -/
theorem C4_amended (text : PyStr) :
    ((pyStrip text).length ≤ 3000 → chunk_text 3000 text = [pyStrip text]) ∧
    (∀ c ∈ chunk_text 3000 text, c.length ≤ 3000) ∧
    chunk_text 3000 text = chunk_text_amended 3000 text := by
  refine ⟨?_, ?_, ?_⟩
  · intro hshort
    unfold chunk_text
    by_cases he : text.isEmpty = true
    · have : text = [] := by simpa using he
      subst this
      rfl
    · have hf : text.isEmpty = false := by
        revert he
        cases text.isEmpty <;> simp
      rw [hf]
      simp only [Bool.false_eq_true, if_false]
      rw [if_pos hshort]
  · intro c hc
    unfold chunk_text at hc
    by_cases he : text.isEmpty = true
    · rw [he] at hc
      simp only [if_true] at hc
      rcases List.mem_singleton.mp hc with rfl
      simp
    · have hf : text.isEmpty = false := by
        revert he
        cases text.isEmpty <;> simp
      rw [hf] at hc
      simp only [Bool.false_eq_true, if_false] at hc
      by_cases hshort : (pyStrip text).length ≤ 3000
      · rw [if_pos hshort] at hc
        rcases List.mem_singleton.mp hc with rfl
        exact hshort
      · rw [if_neg hshort] at hc
        have hc' := List.mem_of_mem_filter hc
        exact chunkLoop_mem_le 3000 (pyStrip text) _ 0 rfl c hc'
  · unfold chunk_text chunk_text_amended
    by_cases he : text.isEmpty = true
    · rw [he]
      rfl
    · have hf : text.isEmpty = false := by
        revert he
        cases text.isEmpty <;> simp
      rw [hf]
      simp only [Bool.false_eq_true, if_false]
      by_cases hshort : (pyStrip text).length ≤ 3000
      · rw [if_pos hshort, if_pos hshort]
      · rw [if_neg hshort, if_neg hshort,
          chunkLoop_eq_chunksVia 3000 (pyStrip text) _ 0 rfl]

/-- C4 amended witness: a short text comes back stripped, in one chunk. -/
theorem C4_amended_witness :
    chunk_text 3000 ((" hi there ").data) = [(("hi there").data)] := by
  have h := (C4_amended ((" hi there ").data)).1 (by decide)
  rw [h]
  decide

end EmailToNotion